import Mathlib

/-
  Verification of the Flippo arbiter (src/unnamed/part_000) and the
  reference player (src/player.cc).

  The board is an 8x8 grid of cells.  The arbiter stores cells as chars
  0 / 1 / 2 (empty / player 1 / player 2); the player program stores them
  as the enum NONE = 0 / WHITE = 1 / BLACK = -1.  Both encodings are three
  values with an involutive swap of the two occupied states, so we model
  both with a single inductive type `Cell`; `white` stands for the
  arbiter's 1 / the player's WHITE (the first mover), `black` for the
  arbiter's 2 / the player's BLACK.  The arbiter flips a piece with
  `fields[r][c] ^= 3` (only ever applied to cells holding 1 or 2, where it
  swaps them) and the player with `Other` (which also maps NONE to NONE);
  both are modelled by `Cell.other`.
-/

namespace Flippo

inductive Cell : Type where
  | empty : Cell
  | white : Cell
  | black : Cell
deriving DecidableEq, Repr

/-- `Other` in src/player.cc (negation of the enum value): swaps the two
players and fixes the empty cell.  Also models the arbiter's `^= 3` on
occupied cells. -/
def Cell.other : Cell → Cell
  | Cell.empty => Cell.empty
  | Cell.white => Cell.black
  | Cell.black => Cell.white

/-- A move, as in both files: a (row, column) pair of machine integers. -/
structure Move : Type where
  row : Int
  col : Int
deriving DecidableEq, Repr

/-- The 8x8 field array of either program, stored row-major. -/
def Fields : Type := List (List Cell)

/-- `ValidCoords` from both files: both coordinates lie in [0, 8). -/
def validCoords (r c : Int) : Bool :=
  decide (0 ≤ r) && decide (r < 8) && decide (0 ≤ c) && decide (c < 8)

/-- Reading `fields[r][c]`.  All reads performed by the embedded code are
guarded by `validCoords`, so the default values are never relevant. -/
def getCell (f : Fields) (r c : Int) : Cell :=
  (List.getD f r.toNat []).getD c.toNat Cell.empty

/-- Materialise an 8x8 field array from a cell-valued function.  Used to
model writes to the C arrays (which always yield a concrete 8x8 array). -/
def build (g : Int → Int → Cell) : Fields :=
  (List.range 8).map (fun (r : Nat) => (List.range 8).map (fun (c : Nat) => g ((r : Nat) : Int) ((c : Nat) : Int)))

/-- Writing `fields[r][c] = v`. -/
def setCell (f : Fields) (r c : Int) (v : Cell) : Fields :=
  build (fun x y => if x = r ∧ y = c then v else getCell f x y)

/-- The 8 scan directions (dr, dc), in the nesting order of the C loops
`for dr in -1..1, for dc in -1..1, skipping (0,0)`. -/
def dirs : List (Int × Int) :=
  [(-1, -1), (-1, 0), (-1, 1), (0, -1), (0, 1), (1, -1), (1, 0), (1, 1)]

/-- The inner scan loop shared by `FindFlips` (arbiter), `HasFlips` and
`DoFlips` (player): starting at distance `n` from (r, c) in direction
(dr, dc), walk outward while the cell is on the board and occupied,
remembering in `last` the largest distance at which the mover's own cell
was seen.  The C loop `for (int n = 1;;++n)` needs no fuel because the
walk leaves the board after at most 7 steps; `fuel = 8` makes the
recursion structural without changing the result. -/
def scanGo (f : Fields) (p : Cell) (r c dr dc : Int) : Nat → Nat → Nat → Nat
  | 0, _, last => last
  | fuel + 1, n, last =>
    let r2 := r + (n : Int) * dr
    let c2 := c + (n : Int) * dc
    if !validCoords r2 c2 || (getCell f r2 c2 == Cell.empty) then last
    else scanGo f p r c dr dc fuel (n + 1) (if getCell f r2 c2 == p then n else last)

/-- `last_n` computed by the direction scan of `FindFlips` / `DoFlips`. -/
def scanLast (f : Fields) (p : Cell) (r c dr dc : Int) : Nat :=
  scanGo f p r c dr dc 8 1 0

/-- Whether (x, y) is one of the cells flipped in direction (dr, dc) when
the scan returned `last`: the cells at distances 1, ..., last - 1. -/
def onRay (r c dr dc : Int) (last : Nat) (x y : Int) : Bool :=
  (List.range last).any (fun n =>
    decide (1 ≤ n) && (x == r + (n : Int) * dr) && (y == c + (n : Int) * dc))

/-- The flip pass of one direction in `FindFlips` (arbiter, with the
mutating callback of `ExecuteMove`) and `DoFlips` (player): scan the
direction, then toggle the cells at distances 1 .. last_n - 1.  The C
loop `for (n = 1; n < last_n; ++n)` toggles each of these pairwise
distinct cells exactly once, which is the pointwise update below. -/
def flipDir (f : Fields) (p : Cell) (r c dr dc : Int) : Fields :=
  build (fun x y =>
    if onRay r c dr dc (scanLast f p r c dr dc) x y then (getCell f x y).other
    else getCell f x y)

/-- All eight directions of `FindFlips` / `DoFlips`, processed in loop
order; each direction scans the fields as already modified by the
previous directions, exactly as the mutating C code does. -/
def doFlips (f : Fields) (p : Cell) (r c : Int) : Fields :=
  dirs.foldl (fun g d => flipDir g p r c d.1 d.2) f

/-- `HasFlips` (player) and the arbiter's use of `FindFlips` with the
always-aborting callback: some direction yields at least one flipped
cell, i.e. its scan finds the mover's own cell at distance at least 2. -/
def hasFlips (f : Fields) (p : Cell) (r c : Int) : Bool :=
  dirs.any (fun d => decide (2 ≤ scanLast f p r c d.1 d.2))

/-- `HasOccupiedNeighbor` of the arbiter: some cell at offset
(dr, dc) ≠ (0, 0), on the board, is occupied. -/
def hasOccupiedNeighborA (f : Fields) (r c : Int) : Bool :=
  dirs.any (fun d => validCoords (r + d.1) (c + d.2)
    && !(getCell f (r + d.1) (c + d.2) == Cell.empty))

/-- `HasOccupiedNeighbor` of the player: iterates over the clamped square
[max(r-1,0), min(r+1,7)] x [max(c-1,0), min(c+1,7)] — i.e. the on-board
cells among the 3x3 block centred at (r, c), including (r, c) itself
(which the function requires, via CHECK, to be empty). -/
def hasOccupiedNeighborP (f : Fields) (r c : Int) : Bool :=
  ((0, 0) :: dirs).any (fun d => validCoords (r + d.1) (c + d.2)
    && !(getCell f (r + d.1) (c + d.2) == Cell.empty))

/-- The 64 board coordinates in the row-major order of all the C loops
`REP(r, H) REP(c, W)` / `for r < SIZE, for c < SIZE`. -/
def cellsList : List (Int × Int) :=
  (List.range 8).flatMap (fun (r : Nat) =>
    (List.range 8).map (fun (c : Nat) => (((r : Nat) : Int), ((c : Nat) : Int))))

/-- The arbiter's `State`: the field array plus the number of moves
played. -/
structure State : Type where
  fields : Fields
  moves_played : Nat

/-- `InitialState` of the arbiter: four discs in the centre 2x2 block,
no moves played. -/
def InitialState : State :=
  { fields := build (fun r c =>
      if r = 3 ∧ c = 3 then Cell.white
      else if r = 3 ∧ c = 4 then Cell.black
      else if r = 4 ∧ c = 3 then Cell.black
      else if r = 4 ∧ c = 4 then Cell.white
      else Cell.empty)
    moves_played := 0 }

/-- `(state.moves_played & 1) + 1` of the arbiter, mapped to `Cell`:
player 1 (white) moves on even counts, player 2 (black) on odd. -/
def currentPlayer (s : State) : Cell :=
  if s.moves_played % 2 = 0 then Cell.white else Cell.black

/-- `IsGameOver` of the arbiter: the move count reached `MAX_MOVES = 60`. -/
def isGameOver (s : State) : Bool :=
  decide (60 ≤ s.moves_played)

/-- `GetNextPlayer` of the arbiter: `moves_played & 1`. -/
def getNextPlayer (s : State) : Nat :=
  s.moves_played % 2

/-- `CalculateScore` of the arbiter: number of player-1 cells minus
number of player-2 cells. -/
def calculateScore (s : State) : Int :=
  (cellsList.countP (fun z => getCell s.fields z.1 z.2 == Cell.white) : Int)
    - (cellsList.countP (fun z => getCell s.fields z.1 z.2 == Cell.black) : Int)

/-- The `all_moves` vector of `ListValidMoves` (and `total_moves` of the
player's `ListMoves`): empty cells with an occupied neighbor, in
row-major order.  `nbr` is the neighbor test of the respective file. -/
def candidates (f : Fields) (nbr : Fields → Int → Int → Bool) : List Move :=
  (cellsList.filter (fun z => (getCell f z.1 z.2 == Cell.empty) && nbr f z.1 z.2)).map
    (fun z => ⟨z.1, z.2⟩)

/-- `ListValidMoves` of the arbiter: all empty cells with an occupied
neighbor; if any of them flips something for the mover, only those. -/
def listValidMoves (s : State) : List Move :=
  let player := currentPlayer s
  let all_moves := candidates s.fields hasOccupiedNeighborA
  let flipping_moves := all_moves.filter (fun m => hasFlips s.fields player m.row m.col)
  if flipping_moves.isEmpty then all_moves else flipping_moves

/-- `ExecuteMove` of the arbiter: flip (via `FindFlips` with the toggling
callback), then place the mover's disc, then count the move. -/
def executeMove (s : State) (m : Move) : State :=
  let player := currentPlayer s
  let f1 := doFlips s.fields player m.row m.col
  { fields := setCell f1 m.row m.col player
    moves_played := s.moves_played + 1 }

/-- `ValidateMove` of the arbiter: membership in `ListValidMoves`. -/
def validateMove (s : State) (m : Move) : Bool :=
  (listValidMoves s).contains m

/-- Replaying a list of moves through the arbiter's `ValidateMove` /
`ExecuteMove`, failing if any move is not in the valid-move list of the
state where it is played. -/
def playSeq : State → List Move → Option State
  | s, [] => some s
  | s, m :: ms => if validateMove s m then playSeq (executeMove s m) ms else none

/-- Some cell of the board is empty. -/
def hasEmptyCell (s : State) : Bool :=
  cellsList.any (fun z => getCell s.fields z.1 z.2 == Cell.empty)

/-! ### Basic lemmas about cells, coordinates and the board accessors -/

theorem Cell.other_other (v : Cell) : v.other.other = v := by
  cases v <;> rfl

theorem Cell.other_eq_empty_iff (v : Cell) : v.other = Cell.empty ↔ v = Cell.empty := by
  cases v <;> simp [Cell.other]

theorem validCoords_iff {r c : Int} :
    validCoords r c = true ↔ 0 ≤ r ∧ r < 8 ∧ 0 ≤ c ∧ c < 8 := by
  simp [validCoords, and_assoc]

theorem getCell_build (g : Int → Int → Cell) {r c : Int}
    (hr0 : 0 ≤ r) (hr : r < 8) (hc0 : 0 ≤ c) (hc : c < 8) :
    getCell (build g) r c = g r c := by
  have hrn : r.toNat < 8 := by omega
  have hcn : c.toNat < 8 := by omega
  unfold getCell build
  simp only [List.getD_eq_getElem?_getD]
  rw [List.getElem?_map, List.getElem?_range hrn]
  simp only [Option.map_some', Option.getD_some]
  rw [List.getElem?_map, List.getElem?_range hcn]
  simp only [Option.map_some', Option.getD_some]
  rw [Int.toNat_of_nonneg hr0, Int.toNat_of_nonneg hc0]

theorem getCell_setCell (f : Fields) (r c : Int) (v : Cell) {x y : Int}
    (hx0 : 0 ≤ x) (hx : x < 8) (hy0 : 0 ≤ y) (hy : y < 8) :
    getCell (setCell f r c v) x y = if x = r ∧ y = c then v else getCell f x y := by
  unfold setCell
  rw [getCell_build _ hx0 hx hy0 hy]

theorem mem_cellsList {x y : Int} :
    (x, y) ∈ cellsList ↔ 0 ≤ x ∧ x < 8 ∧ 0 ≤ y ∧ y < 8 := by
  simp only [cellsList, List.mem_flatMap, List.mem_map, List.mem_range]
  constructor
  · rintro ⟨r, hr, c, hc, h⟩
    cases h
    constructor
    · omega
    constructor
    · omega
    omega
  · rintro ⟨hx0, hx, hy0, hy⟩
    refine ⟨x.toNat, by omega, y.toNat, by omega, ?_⟩
    simp only [Prod.mk.injEq]
    omega

/-! ### Characterization of the direction scan

`scanLast` is the largest distance, within the contiguous run of occupied
on-board cells extending from the move square, at which the mover's own
cell sits (and 0 when there is no such distance). -/

/-- The walk of the scan reaches distance `m`: the cells at distances
1 .. m in direction (dr, dc) are all on the board and occupied. -/
def okTo (f : Fields) (r c dr dc : Int) (m : Nat) : Prop :=
  ∀ k : Nat, 1 ≤ k → k ≤ m →
    validCoords (r + (k : Int) * dr) (c + (k : Int) * dc) = true ∧
    getCell f (r + (k : Int) * dr) (c + (k : Int) * dc) ≠ Cell.empty

/-- What the value `last_n` of a direction scan means: it is 0 or a
reachable distance holding the mover's cell, and no larger reachable
distance holds the mover's cell. -/
def scanSpec (f : Fields) (p : Cell) (r c dr dc : Int) (L : Nat) : Prop :=
  (L = 0 ∨ (1 ≤ L ∧ okTo f r c dr dc L ∧
      getCell f (r + (L : Int) * dr) (c + (L : Int) * dc) = p)) ∧
  (∀ m : Nat, 1 ≤ m → okTo f r c dr dc m →
      getCell f (r + (m : Int) * dr) (c + (m : Int) * dc) = p → m ≤ L)

theorem okTo_mono {f : Fields} {r c dr dc : Int} {m k : Nat}
    (h : okTo f r c dr dc m) (hk : k ≤ m) : okTo f r c dr dc k :=
  fun j hj1 hj2 => h j hj1 (le_trans hj2 hk)

theorem off_board {r c dr dc : Int} (hv : validCoords r c = true)
    (hd : (dr, dc) ∈ dirs) :
    validCoords (r + (8 : Int) * dr) (c + (8 : Int) * dc) = false := by
  rw [validCoords_iff] at hv
  fin_cases hd <;>
    · simp only [validCoords, Bool.and_eq_false_iff, decide_eq_false_iff_not, not_le, not_lt]
      omega

theorem okTo_le_seven {f : Fields} {r c dr dc : Int} {m : Nat}
    (hv : validCoords r c = true) (hd : (dr, dc) ∈ dirs)
    (h : okTo f r c dr dc m) : m ≤ 7 := by
  by_contra hm
  have h8 := (h 8 (by omega) (by omega)).1
  have := off_board hv hd
  rw [show ((8 : Nat) : Int) = (8 : Int) from rfl] at h8
  rw [this] at h8
  exact Bool.false_ne_true h8

theorem scanGo_spec (f : Fields) (p : Cell) (r c dr dc : Int)
    (hv : validCoords r c = true) (hd : (dr, dc) ∈ dirs) :
    ∀ fuel n last : Nat, 1 ≤ n → 9 ≤ n + fuel →
      okTo f r c dr dc (n - 1) →
      (last = 0 ∨ (1 ≤ last ∧ last < n ∧
        getCell f (r + (last : Int) * dr) (c + (last : Int) * dc) = p)) →
      (∀ m : Nat, 1 ≤ m → m < n →
        getCell f (r + (m : Int) * dr) (c + (m : Int) * dc) = p → m ≤ last) →
      scanSpec f p r c dr dc (scanGo f p r c dr dc fuel n last) := by
  intro fuel
  induction fuel with
  | zero =>
    intro n last h1 h9 hok _ _
    exfalso
    have := okTo_le_seven hv hd hok
    omega
  | succ fuel ih =>
    intro n last h1 h9 hok hlast hmax
    by_cases hvld : validCoords (r + (n : Int) * dr) (c + (n : Int) * dc) = true
    · by_cases hemp : getCell f (r + (n : Int) * dr) (c + (n : Int) * dc) = Cell.empty
      · -- the walk stops on an empty cell: the scan returns `last`
        have hcond : (!validCoords (r + (n : Int) * dr) (c + (n : Int) * dc)
            || (getCell f (r + (n : Int) * dr) (c + (n : Int) * dc) == Cell.empty)) = true := by
          simp [hemp]
        simp only [scanGo, hcond, if_true]
        constructor
        · rcases hlast with h0 | ⟨hl1, hl2, hl3⟩
          · exact Or.inl h0
          · exact Or.inr ⟨hl1, okTo_mono hok (by omega), hl3⟩
        · intro m hm1 hokm hpm
          by_cases hmn : m < n
          · exact hmax m hm1 hmn hpm
          · exact absurd hemp (hokm n h1 (by omega)).2
      · -- the walk continues past the occupied cell at distance n
        have hcond : (!validCoords (r + (n : Int) * dr) (c + (n : Int) * dc)
            || (getCell f (r + (n : Int) * dr) (c + (n : Int) * dc) == Cell.empty)) = false := by
          simp [hvld, hemp]
        simp only [scanGo, hcond, Bool.false_eq_true, if_false]
        have hokn : okTo f r c dr dc n := by
          intro k hk1 hk2
          by_cases hkn : k ≤ n - 1
          · exact hok k hk1 hkn
          · have : k = n := by omega
            subst this
            exact ⟨hvld, hemp⟩
        apply ih (n + 1) _ (by omega) (by omega) (by simpa using hokn)
        · by_cases hp : getCell f (r + (n : Int) * dr) (c + (n : Int) * dc) = p
          · rw [if_pos (by simp [hp])]
            exact Or.inr ⟨h1, by omega, hp⟩
          · rw [if_neg (by simp [hp])]
            rcases hlast with h0 | ⟨hl1, hl2, hl3⟩
            · exact Or.inl h0
            · exact Or.inr ⟨hl1, by omega, hl3⟩
        · intro m hm1 hmn hpm
          by_cases hp : getCell f (r + (n : Int) * dr) (c + (n : Int) * dc) = p
          · rw [if_pos (by simp [hp])]
            by_cases hmn' : m < n
            · have := hmax m hm1 hmn' hpm
              omega
            · omega
          · rw [if_neg (by simp [hp])]
            by_cases hmn' : m < n
            · exact hmax m hm1 hmn' hpm
            · exfalso
              have : m = n := by omega
              subst this
              exact hp hpm
    · -- the walk leaves the board: the scan returns `last`
      have hcond : (!validCoords (r + (n : Int) * dr) (c + (n : Int) * dc)
          || (getCell f (r + (n : Int) * dr) (c + (n : Int) * dc) == Cell.empty)) = true := by
        simp only [Bool.or_eq_true, Bool.not_eq_true']
        exact Or.inl (by simpa using hvld)
      simp only [scanGo, hcond, if_true]
      constructor
      · rcases hlast with h0 | ⟨hl1, hl2, hl3⟩
        · exact Or.inl h0
        · exact Or.inr ⟨hl1, okTo_mono hok (by omega), hl3⟩
      · intro m hm1 hokm hpm
        by_cases hmn : m < n
        · exact hmax m hm1 hmn hpm
        · exact absurd (hokm n h1 (by omega)).1 hvld

theorem scanLast_spec (f : Fields) (p : Cell) {r c dr dc : Int}
    (hv : validCoords r c = true) (hd : (dr, dc) ∈ dirs) :
    scanSpec f p r c dr dc (scanLast f p r c dr dc) := by
  apply scanGo_spec f p r c dr dc hv hd 8 1 0 (by omega) (by omega)
  · intro k hk1 hk2
    omega
  · exact Or.inl rfl
  · intro m hm1 hmn
    omega

theorem scanSpec_unique {f : Fields} {p : Cell} {r c dr dc : Int} {L1 L2 : Nat}
    (h1 : scanSpec f p r c dr dc L1) (h2 : scanSpec f p r c dr dc L2) : L1 = L2 := by
  obtain ⟨h1a, h1b⟩ := h1
  obtain ⟨h2a, h2b⟩ := h2
  rcases h1a with hz1 | ⟨hl1, hok1, hp1⟩
  · rcases h2a with hz2 | ⟨hl2, hok2, hp2⟩
    · omega
    · have := h1b L2 hl2 hok2 hp2
      omega
  · rcases h2a with hz2 | ⟨hl2, hok2, hp2⟩
    · have := h2b L1 hl1 hok1 hp1
      omega
    · have := h1b L2 hl2 hok2 hp2
      have := h2b L1 hl1 hok1 hp1
      omega

theorem scanLast_le_seven (f : Fields) (p : Cell) {r c dr dc : Int}
    (hv : validCoords r c = true) (hd : (dr, dc) ∈ dirs) :
    scanLast f p r c dr dc ≤ 7 := by
  rcases (scanLast_spec f p hv hd).1 with h0 | ⟨_, hok, _⟩
  · omega
  · exact okTo_le_seven hv hd hok

/-! ### Ray geometry: the 8 scan rays from a square are pairwise disjoint -/

theorem ray_ne_center {r c dr dc : Int} (hd : (dr, dc) ∈ dirs) {n : Nat} (hn : 1 ≤ n) :
    ¬(r + (n : Int) * dr = r ∧ c + (n : Int) * dc = c) := by
  fin_cases hd <;> · rintro ⟨h1, h2⟩; omega

theorem ray_inj {r c dr dc dr' dc' : Int} (hd : (dr, dc) ∈ dirs) (hd' : (dr', dc') ∈ dirs)
    {n n' : Nat} (hn : 1 ≤ n) (hn' : 1 ≤ n')
    (hx : r + (n : Int) * dr = r + (n' : Int) * dr')
    (hy : c + (n : Int) * dc = c + (n' : Int) * dc') :
    dr = dr' ∧ dc = dc' ∧ n = n' := by
  fin_cases hd <;> fin_cases hd' <;> omega

/-! ### Locality of the scan and of the flip passes -/

theorem scanGo_congr (f g : Fields) (p : Cell) (r c dr dc : Int)
    (h : ∀ k : Nat, 1 ≤ k → k ≤ 8 →
      validCoords (r + (k : Int) * dr) (c + (k : Int) * dc) = true →
      getCell f (r + (k : Int) * dr) (c + (k : Int) * dc)
        = getCell g (r + (k : Int) * dr) (c + (k : Int) * dc)) :
    ∀ fuel n last : Nat, 1 ≤ n → n + fuel ≤ 9 →
      scanGo f p r c dr dc fuel n last = scanGo g p r c dr dc fuel n last := by
  intro fuel
  induction fuel with
  | zero => intro n last _ _; rfl
  | succ fuel ih =>
    intro n last h1 h9
    by_cases hvld : validCoords (r + (n : Int) * dr) (c + (n : Int) * dc) = true
    · have hcell := h n h1 (by omega) hvld
      simp only [scanGo, hcell]
      by_cases hemp : getCell g (r + (n : Int) * dr) (c + (n : Int) * dc) = Cell.empty
      · simp [hemp]
      · have hcond : (!validCoords (r + (n : Int) * dr) (c + (n : Int) * dc)
            || (getCell g (r + (n : Int) * dr) (c + (n : Int) * dc) == Cell.empty)) = false := by
          simp [hvld, hemp]
        simp only [hcond, Bool.false_eq_true, if_false]
        exact ih (n + 1) _ (by omega) (by omega)
    · have hcond : (!validCoords (r + (n : Int) * dr) (c + (n : Int) * dc)) = true := by
        simp only [Bool.not_eq_true']
        simpa using hvld
      simp [scanGo, hcond]

theorem scanLast_congr (f g : Fields) (p : Cell) (r c dr dc : Int)
    (h : ∀ k : Nat, 1 ≤ k → k ≤ 8 →
      validCoords (r + (k : Int) * dr) (c + (k : Int) * dc) = true →
      getCell f (r + (k : Int) * dr) (c + (k : Int) * dc)
        = getCell g (r + (k : Int) * dr) (c + (k : Int) * dc)) :
    scanLast f p r c dr dc = scanLast g p r c dr dc :=
  scanGo_congr f g p r c dr dc h 8 1 0 (by omega) (by omega)

theorem onRay_iff {r c dr dc x y : Int} {L : Nat} :
    onRay r c dr dc L x y = true ↔
      ∃ n : Nat, 1 ≤ n ∧ n < L ∧ x = r + (n : Int) * dr ∧ y = c + (n : Int) * dc := by
  simp only [onRay, List.any_eq_true, List.mem_range, Bool.and_eq_true, decide_eq_true_eq,
    beq_iff_eq]
  constructor
  · rintro ⟨n, hn, ⟨h1, hx⟩, hy⟩
    exact ⟨n, h1, hn, hx, hy⟩
  · rintro ⟨n, h1, hn, hx, hy⟩
    exact ⟨n, hn, ⟨h1, hx⟩, hy⟩

theorem getCell_flipDir (f : Fields) (p : Cell) (r c dr dc : Int) {x y : Int}
    (hx0 : 0 ≤ x) (hx : x < 8) (hy0 : 0 ≤ y) (hy : y < 8) :
    getCell (flipDir f p r c dr dc) x y =
      if onRay r c dr dc (scanLast f p r c dr dc) x y then (getCell f x y).other
      else getCell f x y :=
  getCell_build _ hx0 hx hy0 hy

/-- Cells that are on no ray of origin (r, c) listed in `l` are untouched
by the flip passes of the directions in `l`. -/
theorem getCell_foldl_flipDir_off (l : List (Int × Int)) (p : Cell) (r c : Int) {x y : Int}
    (hx0 : 0 ≤ x) (hx : x < 8) (hy0 : 0 ≤ y) (hy : y < 8)
    (hnot : ∀ d ∈ l, ∀ n : Nat, 1 ≤ n → ¬(x = r + (n : Int) * d.1 ∧ y = c + (n : Int) * d.2)) :
    ∀ g : Fields,
      getCell (l.foldl (fun h d => flipDir h p r c d.1 d.2) g) x y = getCell g x y := by
  induction l with
  | nil => intro g; rfl
  | cons d l ih =>
    intro g
    rw [List.foldl_cons]
    rw [ih (fun d' hd' => hnot d' (List.mem_cons_of_mem d hd'))]
    rw [getCell_flipDir _ _ _ _ _ _ hx0 hx hy0 hy]
    rw [if_neg]
    intro hray
    obtain ⟨n, h1, _, hxe, hye⟩ := onRay_iff.mp hray
    exact hnot d (List.mem_cons_self d l) n h1 ⟨hxe, hye⟩

/-- The flip passes of directions other than (dr, dc) leave every cell of
the (dr, dc) ray unchanged. -/
theorem getCell_foldl_flipDir_ray (l : List (Int × Int)) (p : Cell) {r c dr dc : Int}
    (hd : (dr, dc) ∈ dirs)
    (hl : ∀ d' ∈ l, d' ∈ dirs ∧ d' ≠ (dr, dc)) :
    ∀ g : Fields, ∀ m : Nat, 1 ≤ m →
      validCoords (r + (m : Int) * dr) (c + (m : Int) * dc) = true →
      getCell (l.foldl (fun h d => flipDir h p r c d.1 d.2) g)
          (r + (m : Int) * dr) (c + (m : Int) * dc)
        = getCell g (r + (m : Int) * dr) (c + (m : Int) * dc) := by
  induction l with
  | nil => intro g m _ _; rfl
  | cons d l ih =>
    intro g m hm hvm
    rw [List.foldl_cons]
    rw [ih (fun d' hd' => hl d' (List.mem_cons_of_mem d hd')) _ m hm hvm]
    obtain ⟨hv1, hv2, hv3, hv4⟩ := validCoords_iff.mp hvm
    rw [getCell_flipDir _ _ _ _ _ _ hv1 hv2 hv3 hv4]
    rw [if_neg]
    intro hray
    obtain ⟨n, h1, _, hxe, hye⟩ := onRay_iff.mp hray
    obtain ⟨hdd, hdc, _⟩ := ray_inj hd (hl d (List.mem_cons_self d l)).1 hm h1 hxe hye
    apply (hl d (List.mem_cons_self d l)).2
    rw [hdd, hdc]

theorem dirs_nodup : dirs.Nodup := by decide

theorem getCell_doFlips_off (g : Fields) (p : Cell) (r c : Int) {x y : Int}
    (hx0 : 0 ≤ x) (hx : x < 8) (hy0 : 0 ≤ y) (hy : y < 8)
    (hnot : ∀ d ∈ dirs, ∀ n : Nat, 1 ≤ n → ¬(x = r + (n : Int) * d.1 ∧ y = c + (n : Int) * d.2)) :
    getCell (doFlips g p r c) x y = getCell g x y :=
  getCell_foldl_flipDir_off dirs p r c hx0 hx hy0 hy hnot g

/-- What the eight flip passes of `FindFlips` / `DoFlips` do to the cells
of one ray: the cells strictly below the scanned `last_n` of the original
fields are toggled, the others are unchanged. -/
theorem getCell_doFlips_ray (g : Fields) (p : Cell) {r c dr dc : Int}
    (hv : validCoords r c = true) (hd : (dr, dc) ∈ dirs) :
    ∀ m : Nat, 1 ≤ m → validCoords (r + (m : Int) * dr) (c + (m : Int) * dc) = true →
      getCell (doFlips g p r c) (r + (m : Int) * dr) (c + (m : Int) * dc) =
        if m < scanLast g p r c dr dc
        then (getCell g (r + (m : Int) * dr) (c + (m : Int) * dc)).other
        else getCell g (r + (m : Int) * dr) (c + (m : Int) * dc) := by
  intro m hm hvm
  obtain ⟨l1, l2, hsplit⟩ := List.append_of_mem hd
  have hnd := dirs_nodup
  rw [hsplit, List.nodup_append] at hnd
  obtain ⟨hnd1, hnd2, hdisj⟩ := hnd
  rw [List.nodup_cons] at hnd2
  have hd_notin_l1 : (dr, dc) ∉ l1 := fun h => hdisj h (List.mem_cons_self _ _)
  have hl1 : ∀ d' ∈ l1, d' ∈ dirs ∧ d' ≠ (dr, dc) := by
    intro d' h'
    constructor
    · rw [hsplit]; exact List.mem_append_left _ h'
    · intro he; exact hd_notin_l1 (he ▸ h')
  have hl2 : ∀ d' ∈ l2, d' ∈ dirs ∧ d' ≠ (dr, dc) := by
    intro d' h'
    constructor
    · rw [hsplit]; exact List.mem_append_right _ (List.mem_cons_of_mem _ h')
    · intro he; exact hnd2.1 (he ▸ h')
  unfold doFlips
  rw [hsplit, List.foldl_append, List.foldl_cons]
  have hA : ∀ k : Nat, 1 ≤ k → validCoords (r + (k : Int) * dr) (c + (k : Int) * dc) = true →
      getCell (l1.foldl (fun h d => flipDir h p r c d.1 d.2) g)
          (r + (k : Int) * dr) (c + (k : Int) * dc)
        = getCell g (r + (k : Int) * dr) (c + (k : Int) * dc) :=
    fun k hk hvk => getCell_foldl_flipDir_ray l1 p hd hl1 g k hk hvk
  have hB : scanLast (l1.foldl (fun h d => flipDir h p r c d.1 d.2) g) p r c dr dc
      = scanLast g p r c dr dc :=
    scanLast_congr _ _ _ _ _ _ _ (fun k hk1 _ hvk => hA k hk1 hvk)
  rw [getCell_foldl_flipDir_ray l2 p hd hl2 _ m hm hvm]
  obtain ⟨hv1, hv2, hv3, hv4⟩ := validCoords_iff.mp hvm
  rw [getCell_flipDir _ _ _ _ _ _ hv1 hv2 hv3 hv4, hB, hA m hm hvm]
  by_cases hmL : m < scanLast g p r c dr dc
  · rw [if_pos (onRay_iff.mpr ⟨m, hm, hmL, rfl, rfl⟩), if_pos hmL]
  · rw [if_neg, if_neg hmL]
    intro hray
    obtain ⟨n, h1, hnL, hxe, hye⟩ := onRay_iff.mp hray
    obtain ⟨_, _, hmn⟩ := ray_inj hd hd hm h1 hxe hye
    omega

theorem okTo_doFlips_iff (f : Fields) (p : Cell) {r c dr dc : Int}
    (hv : validCoords r c = true) (hd : (dr, dc) ∈ dirs) (m : Nat) :
    okTo (doFlips f p r c) r c dr dc m ↔ okTo f r c dr dc m := by
  constructor
  · intro h k hk1 hk2
    obtain ⟨hvk, hek⟩ := h k hk1 hk2
    refine ⟨hvk, ?_⟩
    rw [getCell_doFlips_ray f p hv hd k hk1 hvk] at hek
    intro he
    apply hek
    split
    · rw [he]; rfl
    · exact he
  · intro h k hk1 hk2
    obtain ⟨hvk, hek⟩ := h k hk1 hk2
    refine ⟨hvk, ?_⟩
    rw [getCell_doFlips_ray f p hv hd k hk1 hvk]
    split
    · intro he; exact hek ((Cell.other_eq_empty_iff _).mp he)
    · exact hek

/-- Applying the eight flip passes does not change the `last_n` that a
direction scan from the same square computes for the same mover: the
furthest own cell keeps its colour, farther run cells stay non-own, and
occupancy is untouched. -/
theorem scanLast_doFlips (f : Fields) (p : Cell) {r c dr dc : Int}
    (hv : validCoords r c = true) (hd : (dr, dc) ∈ dirs) :
    scanLast (doFlips f p r c) p r c dr dc = scanLast f p r c dr dc := by
  apply scanSpec_unique (scanLast_spec (doFlips f p r c) p hv hd)
  constructor
  · rcases (scanLast_spec f p hv hd).1 with h0 | ⟨hl1, hok, hp⟩
    · exact Or.inl h0
    · refine Or.inr ⟨hl1, (okTo_doFlips_iff f p hv hd _).mpr hok, ?_⟩
      have hvL := (hok _ hl1 le_rfl).1
      rw [getCell_doFlips_ray f p hv hd _ hl1 hvL, if_neg (by omega)]
      exact hp
  · intro m hm1 hokm hpm
    have hokf : okTo f r c dr dc m := (okTo_doFlips_iff f p hv hd m).mp hokm
    by_cases hmL : m < scanLast f p r c dr dc
    · omega
    · apply (scanLast_spec f p hv hd).2 m hm1 hokf
      have hvm := (hokm m hm1 le_rfl).1
      rw [getCell_doFlips_ray f p hv hd m hm1 hvm, if_neg hmL] at hpm
      exact hpm

/-- The flip passes never create or remove a disc: they only swap the
colour of occupied cells. -/
theorem getCell_doFlips_empty_iff (f : Fields) (p : Cell) {r c : Int}
    (hv : validCoords r c = true) {x y : Int}
    (hx0 : 0 ≤ x) (hx : x < 8) (hy0 : 0 ≤ y) (hy : y < 8) :
    (getCell (doFlips f p r c) x y = Cell.empty ↔ getCell f x y = Cell.empty) := by
  by_cases hray : ∃ d ∈ dirs, ∃ n : Nat, 1 ≤ n ∧
      x = r + (n : Int) * d.1 ∧ y = c + (n : Int) * d.2
  · obtain ⟨d, hd, n, hn, hxe, hye⟩ := hray
    have hd' : (d.1, d.2) ∈ dirs := by
      have : (d.1, d.2) = d := rfl
      rw [this]; exact hd
    have hvxy : validCoords x y = true := validCoords_iff.mpr ⟨hx0, hx, hy0, hy⟩
    subst hxe; subst hye
    rw [getCell_doFlips_ray f p hv hd' n hn hvxy]
    split
    · exact Cell.other_eq_empty_iff _
    · exact Iff.rfl
  · rw [getCell_doFlips_off f p r c hx0 hx hy0 hy]
    intro d hd n hn hand
    exact hray ⟨d, hd, n, hn, hand.1, hand.2⟩

/-! ### The reference player (src/player.cc) -/

/-- The player's `Board`: field array plus the player to move next. -/
structure Board : Type where
  fields : Fields
  next_player : Cell

/-- `InitialBoard` of the player: same four central discs, WHITE to move. -/
def InitialBoard : Board :=
  { fields := build (fun r c =>
      if r = 3 ∧ c = 3 then Cell.white
      else if r = 3 ∧ c = 4 then Cell.black
      else if r = 4 ∧ c = 3 then Cell.black
      else if r = 4 ∧ c = 4 then Cell.white
      else Cell.empty)
    next_player := Cell.white }

/-- `operator==` on `Board`: all 64 cells and the next player agree. -/
def boardEq (a b : Board) : Bool :=
  cellsList.all (fun z => getCell a.fields z.1 z.2 == getCell b.fields z.1 z.2)
    && (a.next_player == b.next_player)

/-- `DoMove` of the player: place the mover's disc, flip, pass the turn. -/
def DoMove (b : Board) (m : Move) : Board :=
  let p := b.next_player
  let f1 := setCell b.fields m.row m.col p
  { fields := doFlips f1 p m.row m.col, next_player := p.other }

/-- `UndoMove` of the player: remove the mover's disc, flip again (which
undoes the flips of `DoMove`), give the turn back. -/
def UndoMove (b : Board) (m : Move) : Board :=
  let p := b.next_player.other
  let f1 := setCell b.fields m.row m.col Cell.empty
  { fields := doFlips f1 p m.row m.col, next_player := p }

/-- `ListMoves` of the player: the in-place compaction of the `moves`
array keeps, in order, the flipping candidates when there are any, and
otherwise all candidates. -/
def ListMoves (b : Board) : List Move :=
  let total_moves := candidates b.fields hasOccupiedNeighborP
  let flipping_moves := total_moves.filter (fun m => hasFlips b.fields b.next_player m.row m.col)
  if 0 < flipping_moves.length then flipping_moves else total_moves

def MIN_VALUE : Int := -9999

def MAX_VALUE : Int := 9999

/-- `Evaluate` of the player: material plus mobility, accumulated over
the 64 cells in row-major order.  `p` is the side to move
(`board.next_player`) and its opponent is `p.other`. -/
def Evaluate (b : Board) : Int :=
  cellsList.foldl (fun score z =>
    if getCell b.fields z.1 z.2 == Cell.empty then
      if hasOccupiedNeighborP b.fields z.1 z.2 then
        (if hasFlips b.fields b.next_player z.1 z.2 then score + 2 else score)
          + (if hasFlips b.fields b.next_player.other z.1 z.2 then -2 else 0)
      else score
    else score + (if getCell b.fields z.1 z.2 == b.next_player then 1 else -1)) 0

/-- `Search` of the player: fixed-depth negamax.  The C code checks
`depth <= 0`; the depth only ever decreases by one from a nonnegative
starting value, so `Nat` depth is faithful. -/
def Search (b : Board) : Nat → Int
  | 0 => Evaluate b
  | depth + 1 =>
    let moves := ListMoves b
    if moves.isEmpty then Evaluate b
    else moves.foldl
      (fun best_value m =>
        let value := -(Search (DoMove b m) depth)
        if best_value < value then value else best_value)
      (MIN_VALUE - 1)

/-! ### Move encoding (`FormatMove` / `ParseMove`, same in both files)

A wire line is modelled as its list of character codes (as integers, the
value of the C `char` read). -/

/-- `FormatMove`: the letter 'A' + row followed by the digit '1' + col. -/
def formatMove (m : Move) : List Int :=
  [65 + m.row, 49 + m.col]

/-- `ParseMove`: exactly two characters, which must decode to valid
coordinates. -/
def parseMove (s : List Int) : Option Move :=
  if s.length = 2 then
    let row := s.getD 0 0 - 65
    let col := s.getD 1 0 - 49
    if validCoords row col then some ⟨row, col⟩ else none
  else none

/-! ### The DoMove / UndoMove round trip -/

theorem doMove_undoMove_cell (b : Board) (m : Move)
    (hv : validCoords m.row m.col = true)
    (hemp : getCell b.fields m.row m.col = Cell.empty) :
    ∀ x y : Int, 0 ≤ x → x < 8 → 0 ≤ y → y < 8 →
      getCell (UndoMove (DoMove b m) m).fields x y = getCell b.fields x y := by
  intro x y hx0 hx hy0 hy
  have hvxy : validCoords x y = true := validCoords_iff.mpr ⟨hx0, hx, hy0, hy⟩
  simp only [DoMove, UndoMove, Cell.other_other]
  set p := b.next_player with hp
  set f1 := setCell b.fields m.row m.col p with hf1
  set f2 := doFlips f1 p m.row m.col with hf2
  set f3 := setCell f2 m.row m.col Cell.empty with hf3
  -- f3 agrees with f2 on every cell except the move square
  have hf3f2 : ∀ u v : Int, 0 ≤ u → u < 8 → 0 ≤ v → v < 8 → ¬(u = m.row ∧ v = m.col) →
      getCell f3 u v = getCell f2 u v := by
    intro u v hu0 hu hv0 hvlt hne
    rw [hf3, getCell_setCell _ _ _ _ hu0 hu hv0 hvlt, if_neg hne]
  -- f1 agrees with b.fields on every cell except the move square
  have hf1f0 : ∀ u v : Int, 0 ≤ u → u < 8 → 0 ≤ v → v < 8 → ¬(u = m.row ∧ v = m.col) →
      getCell f1 u v = getCell b.fields u v := by
    intro u v hu0 hu hv0 hvlt hne
    rw [hf1, getCell_setCell _ _ _ _ hu0 hu hv0 hvlt, if_neg hne]
  by_cases hcen : x = m.row ∧ y = m.col
  · -- the move square: both flip passes skip it, the second set empties it
    obtain ⟨hxc, hyc⟩ := hcen
    subst hxc; subst hyc
    rw [getCell_doFlips_off f3 p m.row m.col hx0 hx hy0 hy
      (fun d hd n hn hand => ray_ne_center hd hn ⟨hand.1.symm, hand.2.symm⟩)]
    rw [hf3, getCell_setCell _ _ _ _ hx0 hx hy0 hy, if_pos ⟨rfl, rfl⟩, hemp]
  · by_cases hray : ∃ d ∈ dirs, ∃ n : Nat, 1 ≤ n ∧
        x = m.row + (n : Int) * d.1 ∧ y = m.col + (n : Int) * d.2
    · -- a ray cell: toggled below last_n by both passes, untouched above
      obtain ⟨d, hd, n, hn, hxe, hye⟩ := hray
      have hd' : (d.1, d.2) ∈ dirs := by
        have : (d.1, d.2) = d := rfl
        rw [this]; exact hd
      subst hxe; subst hye
      -- the scans of the second pass see the same ray as those of the first
      have hscan32 : ∀ dr dc : Int, (dr, dc) ∈ dirs →
          scanLast f3 p m.row m.col dr dc = scanLast f2 p m.row m.col dr dc := by
        intro dr dc hdd
        apply scanLast_congr
        intro k hk1 _ hvk
        obtain ⟨hk0, hka, hkb, hkc⟩ := validCoords_iff.mp hvk
        exact hf3f2 _ _ hk0 hka hkb hkc (ray_ne_center hdd hk1)
      have hscan21 : scanLast f2 p m.row m.col d.1 d.2 = scanLast f1 p m.row m.col d.1 d.2 := by
        rw [hf2]
        exact scanLast_doFlips f1 p hv hd'
      rw [getCell_doFlips_ray f3 p hv hd' n hn hvxy]
      rw [hscan32 d.1 d.2 hd', hscan21]
      rw [hf3f2 _ _ hx0 hx hy0 hy (fun hand => ray_ne_center hd' hn ⟨hand.1, hand.2⟩)]
      rw [hf2, getCell_doFlips_ray f1 p hv hd' n hn hvxy]
      rw [hf1f0 _ _ hx0 hx hy0 hy (fun hand => ray_ne_center hd' hn ⟨hand.1, hand.2⟩)]
      split
      · rw [Cell.other_other]
      · rfl
    · -- off every ray: nothing ever touches this cell
      have hnot : ∀ d ∈ dirs, ∀ k : Nat, 1 ≤ k →
          ¬(x = m.row + (k : Int) * d.1 ∧ y = m.col + (k : Int) * d.2) :=
        fun d hd k hk hand => hray ⟨d, hd, k, hk, hand.1, hand.2⟩
      rw [getCell_doFlips_off f3 p m.row m.col hx0 hx hy0 hy hnot]
      rw [hf3f2 _ _ hx0 hx hy0 hy hcen]
      rw [hf2, getCell_doFlips_off f1 p m.row m.col hx0 hx hy0 hy hnot]
      rw [hf1f0 _ _ hx0 hx hy0 hy hcen]

/-! ### Candidate moves -/

theorem mem_candidates {f : Fields} {nbr : Fields → Int → Int → Bool} {m : Move} :
    m ∈ candidates f nbr ↔
      validCoords m.row m.col = true ∧ getCell f m.row m.col = Cell.empty ∧
        nbr f m.row m.col = true := by
  unfold candidates
  rw [List.mem_map]
  constructor
  · rintro ⟨z, hz, rfl⟩
    rw [List.mem_filter] at hz
    obtain ⟨hzmem, hzpred⟩ := hz
    rw [Bool.and_eq_true, beq_iff_eq] at hzpred
    have hb : 0 ≤ z.1 ∧ z.1 < 8 ∧ 0 ≤ z.2 ∧ z.2 < 8 := by
      apply mem_cellsList.mp
      have : (z.1, z.2) = z := rfl
      rw [this]
      exact hzmem
    exact ⟨validCoords_iff.mpr hb, hzpred.1, hzpred.2⟩
  · rintro ⟨hvc, hemp, hnbr⟩
    refine ⟨(m.row, m.col), ?_, ?_⟩
    · rw [List.mem_filter]
      refine ⟨mem_cellsList.mpr (validCoords_iff.mp hvc), ?_⟩
      rw [Bool.and_eq_true, beq_iff_eq]
      exact ⟨hemp, hnbr⟩
    · rfl

theorem hasOccupiedNeighborP_eq_A (f : Fields) (r c : Int)
    (h : getCell f r c = Cell.empty) :
    hasOccupiedNeighborP f r c = hasOccupiedNeighborA f r c := by
  unfold hasOccupiedNeighborP hasOccupiedNeighborA
  rw [List.any_cons]
  simp [h]

/-! ### Claim theorems -/

/-- C1: every move returned by the arbiter's `ListValidMoves` and by the
player's `ListMoves` targets an empty cell with at least one occupied
neighboring cell; and each returned list is exactly the flipping
candidates when some candidate flips, and all candidates otherwise. -/
theorem claim_C1_legal_move_sets (s : State) (b : Board) :
    (∀ m ∈ listValidMoves s,
      getCell s.fields m.row m.col = Cell.empty ∧
      hasOccupiedNeighborA s.fields m.row m.col = true) ∧
    (listValidMoves s =
      if (candidates s.fields hasOccupiedNeighborA).any
          (fun m => hasFlips s.fields (currentPlayer s) m.row m.col)
      then (candidates s.fields hasOccupiedNeighborA).filter
          (fun m => hasFlips s.fields (currentPlayer s) m.row m.col)
      else candidates s.fields hasOccupiedNeighborA) ∧
    (∀ m ∈ ListMoves b,
      getCell b.fields m.row m.col = Cell.empty ∧
      hasOccupiedNeighborA b.fields m.row m.col = true) ∧
    (ListMoves b =
      if (candidates b.fields hasOccupiedNeighborP).any
          (fun m => hasFlips b.fields b.next_player m.row m.col)
      then (candidates b.fields hasOccupiedNeighborP).filter
          (fun m => hasFlips b.fields b.next_player m.row m.col)
      else candidates b.fields hasOccupiedNeighborP) := by
  have harb : ∀ m ∈ listValidMoves s, m ∈ candidates s.fields hasOccupiedNeighborA := by
    intro m hm
    unfold listValidMoves at hm
    by_cases hfe : ((candidates s.fields hasOccupiedNeighborA).filter
        (fun m => hasFlips s.fields (currentPlayer s) m.row m.col)).isEmpty = true
    · rw [if_pos hfe] at hm; exact hm
    · rw [if_neg hfe] at hm; exact (List.mem_filter.mp hm).1
  have hply : ∀ m ∈ ListMoves b, m ∈ candidates b.fields hasOccupiedNeighborP := by
    intro m hm
    unfold ListMoves at hm
    by_cases hfe : 0 < ((candidates b.fields hasOccupiedNeighborP).filter
        (fun m => hasFlips b.fields b.next_player m.row m.col)).length
    · rw [if_pos hfe] at hm; exact (List.mem_filter.mp hm).1
    · rw [if_neg hfe] at hm; exact hm
  refine ⟨?_, ?_, ?_, ?_⟩
  · intro m hm
    obtain ⟨_, h2, h3⟩ := mem_candidates.mp (harb m hm)
    exact ⟨h2, h3⟩
  · unfold listValidMoves
    by_cases hany : (candidates s.fields hasOccupiedNeighborA).any
        (fun m => hasFlips s.fields (currentPlayer s) m.row m.col) = true
    · rw [if_pos hany, if_neg]
      rw [List.any_eq_true] at hany
      obtain ⟨m, hmem, hflip⟩ := hany
      rw [List.isEmpty_iff]
      intro hnil
      have : m ∈ (candidates s.fields hasOccupiedNeighborA).filter
          (fun m => hasFlips s.fields (currentPlayer s) m.row m.col) :=
        List.mem_filter.mpr ⟨hmem, hflip⟩
      rw [hnil] at this
      exact List.not_mem_nil m this
    · rw [if_neg hany, if_pos]
      rw [List.isEmpty_iff, List.filter_eq_nil_iff]
      intro m hmem hflip
      exact hany (List.any_eq_true.mpr ⟨m, hmem, hflip⟩)
  · intro m hm
    obtain ⟨_, h2, h3⟩ := mem_candidates.mp (hply m hm)
    rw [hasOccupiedNeighborP_eq_A b.fields m.row m.col h2] at h3
    exact ⟨h2, h3⟩
  · unfold ListMoves
    by_cases hany : (candidates b.fields hasOccupiedNeighborP).any
        (fun m => hasFlips b.fields b.next_player m.row m.col) = true
    · rw [if_pos hany, if_pos]
      rw [List.any_eq_true] at hany
      obtain ⟨m, hmem, hflip⟩ := hany
      rw [List.length_pos]
      intro hnil
      have : m ∈ (candidates b.fields hasOccupiedNeighborP).filter
          (fun m => hasFlips b.fields b.next_player m.row m.col) :=
        List.mem_filter.mpr ⟨hmem, hflip⟩
      rw [hnil] at this
      exact List.not_mem_nil m this
    · rw [if_neg hany, if_neg]
      intro hpos
      rw [List.length_pos] at hpos
      apply hpos
      rw [List.filter_eq_nil_iff]
      intro m hmem hflip
      exact hany (List.any_eq_true.mpr ⟨m, hmem, hflip⟩)

theorem claim_C1_legal_move_sets_witness :
    (⟨2, 4⟩ : Move) ∈ listValidMoves InitialState ∧
      (getCell InitialState.fields (2 : Int) (4 : Int) = Cell.empty ∧
       hasOccupiedNeighborA InitialState.fields (2 : Int) (4 : Int) = true) :=
  ⟨by decide, (claim_C1_legal_move_sets InitialState InitialBoard).1 ⟨2, 4⟩ (by decide)⟩

/-! ### C2: what one direction of the flip enumeration does -/

/-- The per-direction flip set as described by the spec sentence of C2
(standard Othello bracketing): the length of the contiguous run of
opposing-mover cells scanned outward from (r, c). -/
def specRun (f : Fields) (p : Cell) (r c dr dc : Int) : Nat :=
  ((List.range' 1 7).takeWhile (fun n =>
    validCoords (r + (n : Int) * dr) (c + (n : Int) * dc)
      && (getCell f (r + (n : Int) * dr) (c + (n : Int) * dc) == p.other))).length

/-- Whether that run terminates on a same-mover cell (spec reading). -/
def specTerminatesOnMover (f : Fields) (p : Cell) (r c dr dc : Int) : Bool :=
  let k := specRun f p r c dr dc
  validCoords (r + ((k : Int) + 1) * dr) (c + ((k : Int) + 1) * dc)
    && (getCell f (r + ((k : Int) + 1) * dr) (c + ((k : Int) + 1) * dc) == p)

/-- The flip distances of one direction as the spec sentence describes
them: the collected opposing run, when it terminates on a same-mover
cell; nothing otherwise. -/
def specFlipsDir (f : Fields) (p : Cell) (r c dr dc : Int) : List Nat :=
  if specTerminatesOnMover f p r c dr dc
  then List.range' 1 (specRun f p r c dr dc) else []

/-- The flip distances one direction of the code actually produces: the
cells at distances 1 .. last_n - 1. -/
def codeFlipsDir (f : Fields) (p : Cell) (r c dr dc : Int) : List Nat :=
  List.range' 1 (scanLast f p r c dr dc - 1)

/-- A board refuting C2 as stated: from (0,0) rightward the cells hold
WHITE, BLACK, WHITE.  For the mover WHITE the scan records last_n = 3 and
flips distances 1 and 2 (toggling the mover's own disc at distance 1),
while the spec's description collects no opposing cell and flips
nothing. -/
def exampleFields : Fields :=
  build (fun r c =>
    if r = 0 ∧ c = 1 then Cell.white
    else if r = 0 ∧ c = 2 then Cell.black
    else if r = 0 ∧ c = 3 then Cell.white
    else Cell.empty)

/-- C2 as stated is false: the code's scan does not stop at the first
same-mover cell; it runs through the whole occupied run and flips
everything before the furthest same-mover cell. -/
theorem claim_C2_counterexample :
    ¬ (∀ (f : Fields) (p : Cell) (r c dr dc : Int),
        (p = Cell.white ∨ p = Cell.black) →
        validCoords r c = true → (dr, dc) ∈ dirs →
        codeFlipsDir f p r c dr dc = specFlipsDir f p r c dr dc) := by
  intro h
  have := h exampleFields Cell.white 0 0 0 1 (Or.inl rfl) (by decide) (by decide)
  exact absurd this (by decide)

/-- C2 (amended): per direction, the scan walks through the contiguous
run of occupied on-board cells; last_n is the largest distance in that
run holding the mover's own disc (0 when there is none), and the flip
pass toggles exactly the cells at distances strictly below last_n. -/
theorem claim_C2_flip_scan (f : Fields) (p : Cell) (r c dr dc : Int)
    (hv : validCoords r c = true) (hd : (dr, dc) ∈ dirs) :
    (scanLast f p r c dr dc = 0 ∨
      (1 ≤ scanLast f p r c dr dc ∧ okTo f r c dr dc (scanLast f p r c dr dc) ∧
        getCell f (r + (scanLast f p r c dr dc : Int) * dr)
          (c + (scanLast f p r c dr dc : Int) * dc) = p)) ∧
    (∀ m : Nat, 1 ≤ m → okTo f r c dr dc m →
      getCell f (r + (m : Int) * dr) (c + (m : Int) * dc) = p →
      m ≤ scanLast f p r c dr dc) ∧
    (∀ x y : Int, 0 ≤ x → x < 8 → 0 ≤ y → y < 8 →
      getCell (flipDir f p r c dr dc) x y =
        if onRay r c dr dc (scanLast f p r c dr dc) x y then (getCell f x y).other
        else getCell f x y) ∧
    (∀ x y : Int, onRay r c dr dc (scanLast f p r c dr dc) x y = true ↔
      ∃ n : Nat, 1 ≤ n ∧ n < scanLast f p r c dr dc ∧
        x = r + (n : Int) * dr ∧ y = c + (n : Int) * dc) := by
  obtain ⟨hchar1, hchar2⟩ := scanLast_spec f p hv hd
  refine ⟨hchar1, hchar2, ?_, ?_⟩
  · intro x y hx0 hx hy0 hy
    exact getCell_flipDir f p r c dr dc hx0 hx hy0 hy
  · intro x y
    exact onRay_iff

theorem claim_C2_flip_scan_witness :
    validCoords 0 0 = true ∧ ((0 : Int), (1 : Int)) ∈ dirs ∧
      (scanLast exampleFields Cell.white 0 0 0 1 = 0 ∨
        (1 ≤ scanLast exampleFields Cell.white 0 0 0 1 ∧
         okTo exampleFields 0 0 0 1 (scanLast exampleFields Cell.white 0 0 0 1) ∧
         getCell exampleFields
           (0 + (scanLast exampleFields Cell.white 0 0 0 1 : Int) * 0)
           (0 + (scanLast exampleFields Cell.white 0 0 0 1 : Int) * 1) = Cell.white)) :=
  ⟨by decide, by decide,
    (claim_C2_flip_scan exampleFields Cell.white 0 0 0 1 (by decide) (by decide)).1⟩

/-- C3: `DoMove` followed by `UndoMove` with the same move restores the
exact prior board, including the next-player field, whenever the move's
target cell is on the board and empty. -/
theorem claim_C3_roundtrip (b : Board) (m : Move)
    (hv : validCoords m.row m.col = true)
    (hemp : getCell b.fields m.row m.col = Cell.empty) :
    boardEq (UndoMove (DoMove b m) m) b = true := by
  unfold boardEq
  rw [Bool.and_eq_true]
  constructor
  · rw [List.all_eq_true]
    intro z hz
    have hb : 0 ≤ z.1 ∧ z.1 < 8 ∧ 0 ≤ z.2 ∧ z.2 < 8 := by
      apply mem_cellsList.mp
      have : (z.1, z.2) = z := rfl
      rw [this]
      exact hz
    rw [beq_iff_eq]
    exact doMove_undoMove_cell b m hv hemp z.1 z.2 hb.1 hb.2.1 hb.2.2.1 hb.2.2.2
  · rw [beq_iff_eq]
    simp only [UndoMove, DoMove, Cell.other_other]

theorem claim_C3_roundtrip_witness :
    validCoords (2 : Int) (4 : Int) = true ∧
    getCell InitialBoard.fields (2 : Int) (4 : Int) = Cell.empty ∧
    boardEq (UndoMove (DoMove InitialBoard ⟨2, 4⟩) ⟨2, 4⟩) InitialBoard = true :=
  ⟨by decide, by decide,
    claim_C3_roundtrip InitialBoard ⟨2, 4⟩ (by decide) (by decide)⟩

/-- C7: `ParseMove` inverts `FormatMove` on every board coordinate, and
accepts exactly the two-character strings whose letter and digit decode
to in-range coordinates. -/
theorem claim_C7_move_code :
    (∀ r c : Int, 0 ≤ r → r < 8 → 0 ≤ c → c < 8 →
      parseMove (formatMove ⟨r, c⟩) = some ⟨r, c⟩) ∧
    (∀ s : List Int, (parseMove s).isSome = true ↔
      s.length = 2 ∧ validCoords (s.getD 0 0 - 65) (s.getD 1 0 - 49) = true) := by
  constructor
  · intro r c h1 h2 h3 h4
    have hrow : (65 : Int) + r - 65 = r := by ring
    have hcol : (49 : Int) + c - 49 = c := by ring
    have hv : validCoords r c = true := validCoords_iff.mpr ⟨h1, h2, h3, h4⟩
    unfold parseMove formatMove
    simp only [List.length_cons, List.length_nil, List.getD_cons_zero, List.getD_cons_succ,
      if_true, hrow, hcol, hv]
  · intro s
    constructor
    · intro h
      by_cases hlen : s.length = 2
      · refine ⟨hlen, ?_⟩
        by_cases hvc : validCoords (s.getD 0 0 - 65) (s.getD 1 0 - 49) = true
        · exact hvc
        · exfalso
          unfold parseMove at h
          rw [if_pos hlen, if_neg hvc] at h
          exact Bool.false_ne_true h
      · exfalso
        unfold parseMove at h
        rw [if_neg hlen] at h
        exact Bool.false_ne_true h
    · rintro ⟨hlen, hvc⟩
      unfold parseMove
      rw [if_pos hlen, if_pos hvc]
      rfl

theorem claim_C7_move_code_witness :
    (0 : Int) ≤ 2 ∧ (2 : Int) < 8 ∧ (0 : Int) ≤ 4 ∧ (4 : Int) < 8 ∧
      parseMove (formatMove ⟨2, 4⟩) = some ⟨2, 4⟩ :=
  ⟨by decide, by decide, by decide, by decide,
    claim_C7_move_code.1 2 4 (by decide) (by decide) (by decide) (by decide)⟩

/-! ### C8: the leaf evaluation is material plus mobility -/

/-- Number of cells of the board holding the value `v`. -/
def countCells (f : Fields) (v : Cell) : Nat :=
  cellsList.countP (fun z => getCell f z.1 z.2 == v)

/-- Number of empty, neighbor-occupied cells where mover `v` has at least
one flipping move. -/
def mobilityCount (b : Board) (v : Cell) : Nat :=
  cellsList.countP (fun z => (getCell b.fields z.1 z.2 == Cell.empty)
    && hasOccupiedNeighborP b.fields z.1 z.2 && hasFlips b.fields v z.1 z.2)

theorem foldl_add_eq_sum {α : Type} (g : α → Int) :
    ∀ (l : List α) (init : Int), l.foldl (fun s z => s + g z) init = init + (l.map g).sum := by
  intro l
  induction l with
  | nil => intro init; simp
  | cons a t ih => intro init; simp [ih]; ring

theorem sum_map_boolCond {α : Type} (q : α → Bool) (k : Int) :
    ∀ l : List α, (l.map (fun x => if q x = true then k else 0)).sum = k * (l.countP q : Int) := by
  intro l
  induction l with
  | nil => simp
  | cons a t ih =>
    by_cases hqa : q a = true
    · simp [hqa, List.countP_cons, ih]
      push_cast
      ring
    · simp [hqa, List.countP_cons, ih]

theorem sum_map_add4 {α : Type} (f1 f2 f3 f4 : α → Int) :
    ∀ l : List α,
      (l.map (fun x => f1 x - f2 x + f3 x - f4 x)).sum
        = (l.map f1).sum - (l.map f2).sum + (l.map f3).sum - (l.map f4).sum := by
  intro l
  induction l with
  | nil => simp
  | cons a t ih => simp [ih]; ring

/-- C8: `Evaluate` equals the material differential (+1 per own disc, -1
per opposing disc) plus 2 per empty, neighbor-occupied cell where the
side to move has a flipping move and -2 per such cell where the opponent
has one. -/
theorem claim_C8_evaluate (b : Board)
    (hp : b.next_player = Cell.white ∨ b.next_player = Cell.black) :
    Evaluate b =
      (countCells b.fields b.next_player : Int)
        - (countCells b.fields b.next_player.other : Int)
        + 2 * (mobilityCount b b.next_player : Int)
        - 2 * (mobilityCount b b.next_player.other : Int) := by
  have hbody : ∀ (score : Int) (z : Int × Int),
      (if getCell b.fields z.1 z.2 == Cell.empty then
        if hasOccupiedNeighborP b.fields z.1 z.2 then
          (if hasFlips b.fields b.next_player z.1 z.2 then score + 2 else score)
            + (if hasFlips b.fields b.next_player.other z.1 z.2 then -2 else 0)
        else score
      else score + (if getCell b.fields z.1 z.2 == b.next_player then 1 else -1)) =
      score +
        ((if (getCell b.fields z.1 z.2 == b.next_player) = true then 1 else 0)
          - (if (getCell b.fields z.1 z.2 == b.next_player.other) = true then 1 else 0)
          + (if ((getCell b.fields z.1 z.2 == Cell.empty)
              && hasOccupiedNeighborP b.fields z.1 z.2
              && hasFlips b.fields b.next_player z.1 z.2) = true then 2 else 0)
          - (if ((getCell b.fields z.1 z.2 == Cell.empty)
              && hasOccupiedNeighborP b.fields z.1 z.2
              && hasFlips b.fields b.next_player.other z.1 z.2) = true then 2 else 0)) := by
    intro score z
    rcases hp with hp | hp <;>
      rw [hp] <;>
        cases hval : getCell b.fields z.1 z.2 <;>
          by_cases hnb : hasOccupiedNeighborP b.fields z.1 z.2 = true <;>
            by_cases hfw : hasFlips b.fields Cell.white z.1 z.2 = true <;>
              by_cases hfb : hasFlips b.fields Cell.black z.1 z.2 = true <;>
                simp [hval, hnb, hfw, hfb, Cell.other] <;> ring
  unfold Evaluate
  rw [show (fun (score : Int) (z : Int × Int) =>
      if getCell b.fields z.1 z.2 == Cell.empty then
        if hasOccupiedNeighborP b.fields z.1 z.2 then
          (if hasFlips b.fields b.next_player z.1 z.2 then score + 2 else score)
            + (if hasFlips b.fields b.next_player.other z.1 z.2 then -2 else 0)
        else score
      else score + (if getCell b.fields z.1 z.2 == b.next_player then 1 else -1)) =
      fun (score : Int) (z : Int × Int) => score +
        ((if (getCell b.fields z.1 z.2 == b.next_player) = true then 1 else 0)
          - (if (getCell b.fields z.1 z.2 == b.next_player.other) = true then 1 else 0)
          + (if ((getCell b.fields z.1 z.2 == Cell.empty)
              && hasOccupiedNeighborP b.fields z.1 z.2
              && hasFlips b.fields b.next_player z.1 z.2) = true then 2 else 0)
          - (if ((getCell b.fields z.1 z.2 == Cell.empty)
              && hasOccupiedNeighborP b.fields z.1 z.2
              && hasFlips b.fields b.next_player.other z.1 z.2) = true then 2 else 0))
    from funext fun score => funext fun z => hbody score z]
  rw [foldl_add_eq_sum]
  rw [sum_map_add4]
  rw [sum_map_boolCond, sum_map_boolCond, sum_map_boolCond, sum_map_boolCond]
  unfold countCells mobilityCount
  ring

theorem claim_C8_evaluate_witness :
    (InitialBoard.next_player = Cell.white ∨ InitialBoard.next_player = Cell.black) ∧
      Evaluate InitialBoard =
        (countCells InitialBoard.fields InitialBoard.next_player : Int)
          - (countCells InitialBoard.fields InitialBoard.next_player.other : Int)
          + 2 * (mobilityCount InitialBoard InitialBoard.next_player : Int)
          - 2 * (mobilityCount InitialBoard InitialBoard.next_player.other : Int) :=
  ⟨Or.inl rfl, claim_C8_evaluate InitialBoard (Or.inl rfl)⟩

/-! ### C10: the search value is always within [MIN_VALUE, MAX_VALUE] -/

/-- Each cell of the evaluation loop moves the accumulator by at most 2
in either direction. -/
theorem foldl_step_bound {α : Type} (gbody : Int → α → Int) (k : Int)
    (hstep : ∀ (s : Int) (x : α), s - k ≤ gbody s x ∧ gbody s x ≤ s + k) :
    ∀ (l : List α) (init : Int),
      init - k * l.length ≤ l.foldl gbody init ∧ l.foldl gbody init ≤ init + k * l.length := by
  intro l
  induction l with
  | nil => intro init; simp
  | cons a t ih =>
    intro init
    rw [List.foldl_cons]
    obtain ⟨ih1, ih2⟩ := ih (gbody init a)
    obtain ⟨hs1, hs2⟩ := hstep init a
    constructor
    · have hlen : ((a :: t).length : Int) = (t.length : Int) + 1 := by
        simp
      rw [hlen]
      have : init - k * ((t.length : Int) + 1) = (init - k) - k * (t.length : Int) := by ring
      rw [this]
      calc (init - k) - k * (t.length : Int)
          ≤ gbody init a - k * (t.length : Int) := by linarith
        _ ≤ t.foldl gbody (gbody init a) := ih1
    · have hlen : ((a :: t).length : Int) = (t.length : Int) + 1 := by
        simp
      rw [hlen]
      have : init + k * ((t.length : Int) + 1) = (init + k) + k * (t.length : Int) := by ring
      rw [this]
      calc t.foldl gbody (gbody init a)
          ≤ gbody init a + k * (t.length : Int) := ih2
        _ ≤ (init + k) + k * (t.length : Int) := by linarith

theorem evaluate_bound (b : Board) : -128 ≤ Evaluate b ∧ Evaluate b ≤ 128 := by
  have hstep : ∀ (s : Int) (z : Int × Int),
      s - 2 ≤ (if getCell b.fields z.1 z.2 == Cell.empty then
        if hasOccupiedNeighborP b.fields z.1 z.2 then
          (if hasFlips b.fields b.next_player z.1 z.2 then s + 2 else s)
            + (if hasFlips b.fields b.next_player.other z.1 z.2 then -2 else 0)
        else s
      else s + (if getCell b.fields z.1 z.2 == b.next_player then 1 else -1)) ∧
      (if getCell b.fields z.1 z.2 == Cell.empty then
        if hasOccupiedNeighborP b.fields z.1 z.2 then
          (if hasFlips b.fields b.next_player z.1 z.2 then s + 2 else s)
            + (if hasFlips b.fields b.next_player.other z.1 z.2 then -2 else 0)
        else s
      else s + (if getCell b.fields z.1 z.2 == b.next_player then 1 else -1)) ≤ s + 2 := by
    intro s z
    by_cases h1 : (getCell b.fields z.1 z.2 == Cell.empty) = true <;>
      by_cases h2 : hasOccupiedNeighborP b.fields z.1 z.2 = true <;>
        by_cases h3 : hasFlips b.fields b.next_player z.1 z.2 = true <;>
          by_cases h4 : hasFlips b.fields b.next_player.other z.1 z.2 = true <;>
            by_cases h5 : (getCell b.fields z.1 z.2 == b.next_player) = true <;>
              simp [h1, h2, h3, h4, h5] <;> omega
  have := foldl_step_bound _ 2 hstep cellsList 0
  have hlen : (cellsList.length : Int) = 64 := by decide
  unfold Evaluate
  rw [hlen] at this
  constructor
  · have := this.1; linarith
  · have := this.2; linarith

/-- The negamax fold only ever raises the accumulator. -/
theorem foldl_best_ge_init (g : Move → Int) :
    ∀ (l : List Move) (init : Int),
      init ≤ l.foldl (fun best m => if best < g m then g m else best) init := by
  intro l
  induction l with
  | nil => intro init; simp
  | cons a t ih =>
    intro init
    rw [List.foldl_cons]
    calc init ≤ (if init < g a then g a else init) := by split <;> omega
      _ ≤ _ := ih _

theorem foldl_best_ge_mem (g : Move → Int) :
    ∀ (l : List Move) (init : Int) (m : Move), m ∈ l →
      g m ≤ l.foldl (fun best m => if best < g m then g m else best) init := by
  intro l
  induction l with
  | nil => intro init m hm; exact absurd hm (List.not_mem_nil m)
  | cons a t ih =>
    intro init m hm
    rw [List.foldl_cons]
    rcases List.mem_cons.mp hm with rfl | hm
    · calc g m ≤ (if init < g m then g m else init) := by split <;> omega
        _ ≤ _ := foldl_best_ge_init g t _
    · exact ih _ m hm

theorem foldl_best_le (g : Move → Int) (hi : Int) :
    ∀ (l : List Move), (∀ m ∈ l, g m ≤ hi) →
      ∀ init : Int, l.foldl (fun best m => if best < g m then g m else best) init ≤ max init hi := by
  intro l
  induction l with
  | nil => intro _ init; simp
  | cons a t ih =>
    intro hg init
    rw [List.foldl_cons]
    have hstep : (if init < g a then g a else init) ≤ max init hi := by
      have := hg a (List.mem_cons_self a t)
      split <;> simp [le_max_iff] <;> omega
    calc t.foldl _ (if init < g a then g a else init)
        ≤ max (if init < g a then g a else init) hi :=
          ih (fun m hm => hg m (List.mem_cons_of_mem a hm)) _
      _ ≤ max (max init hi) hi := by
          apply max_le_max_right
          exact hstep
      _ = max init hi := by rw [max_assoc, max_self]

theorem search_bound : ∀ (d : Nat) (b : Board), -128 ≤ Search b d ∧ Search b d ≤ 128 := by
  intro d
  induction d with
  | zero => intro b; exact evaluate_bound b
  | succ d ih =>
    intro b
    rw [Search]
    by_cases hemp : (ListMoves b).isEmpty = true
    · rw [if_pos hemp]; exact evaluate_bound b
    · rw [if_neg hemp]
      have hne : ListMoves b ≠ [] := by
        intro h; rw [h] at hemp; exact hemp rfl
      obtain ⟨m0, hm0⟩ := List.exists_mem_of_ne_nil _ hne
      have hg : ∀ m ∈ ListMoves b, -(Search (DoMove b m) d) ≤ 128 := by
        intro m _
        have := (ih (DoMove b m)).1
        omega
      constructor
      · calc (-128 : Int) ≤ -(Search (DoMove b m0) d) := by
              have := (ih (DoMove b m0)).2; omega
          _ ≤ _ := foldl_best_ge_mem _ _ _ m0 hm0
      · calc (ListMoves b).foldl _ (MIN_VALUE - 1)
            ≤ max (MIN_VALUE - 1) 128 := foldl_best_le _ 128 _ hg _
          _ = 128 := by unfold MIN_VALUE; rfl

/-- C10: the value returned by `Search` always lies within
[MIN_VALUE, MAX_VALUE] = [-9999, 9999] (the evaluation of a leaf is
bounded by the 64 cells' contributions), so the CHECK assertions on
`best_value` in `Search` cannot fail. -/
theorem claim_C10_search_bounded (b : Board) (d : Nat) :
    MIN_VALUE ≤ Search b d ∧ Search b d ≤ MAX_VALUE := by
  obtain ⟨h1, h2⟩ := search_bound d b
  unfold MIN_VALUE MAX_VALUE
  omega

/-! ### C9 / C6: occupancy counting -/

/-- Number of occupied cells of an arbiter state. -/
def occupiedCount (s : State) : Nat :=
  cellsList.countP (fun z => !(getCell s.fields z.1 z.2 == Cell.empty))

theorem countP_update_one {α : Type} :
    ∀ (l : List α) (pold pnew : α → Bool) (a : α), l.Nodup → a ∈ l →
      pold a = false → pnew a = true → (∀ b ∈ l, b ≠ a → pnew b = pold b) →
      l.countP pnew = l.countP pold + 1 := by
  intro l
  induction l with
  | nil => intro _ _ a _ ha; exact absurd ha (List.not_mem_nil a)
  | cons x t ih =>
    intro pold pnew a hnd ha hpold hpnew hagree
    rw [List.nodup_cons] at hnd
    rcases List.mem_cons.mp ha with rfl | ha
    · rw [List.countP_cons, List.countP_cons, hpold, hpnew]
      have ht : t.countP pnew = t.countP pold := by
        apply List.countP_congr
        intro b hb
        rw [hagree b (List.mem_cons_of_mem a hb) (fun he => hnd.1 (he ▸ hb))]
      rw [ht]
      simp
    · have hx : x ≠ a := fun he => hnd.1 (he ▸ ha)
      rw [List.countP_cons, List.countP_cons]
      rw [hagree x (List.mem_cons_self x t) hx]
      rw [ih pold pnew a hnd.2 ha hpold hpnew
        (fun b hb hbne => hagree b (List.mem_cons_of_mem x hb) hbne)]
      omega

theorem cellsList_nodup : cellsList.Nodup := by decide

theorem currentPlayer_ne_empty (s : State) : currentPlayer s ≠ Cell.empty := by
  unfold currentPlayer
  split <;> simp

theorem getCell_executeMove (s : State) (m : Move) {x y : Int}
    (hx0 : 0 ≤ x) (hx : x < 8) (hy0 : 0 ≤ y) (hy : y < 8) :
    getCell (executeMove s m).fields x y =
      if x = m.row ∧ y = m.col then currentPlayer s
      else getCell (doFlips s.fields (currentPlayer s) m.row m.col) x y := by
  unfold executeMove
  exact getCell_setCell _ _ _ _ hx0 hx hy0 hy

theorem occupiedCount_executeMove (s : State) (m : Move)
    (hv : validCoords m.row m.col = true)
    (hemp : getCell s.fields m.row m.col = Cell.empty) :
    occupiedCount (executeMove s m) = occupiedCount s + 1 := by
  obtain ⟨hr0, hr, hc0, hc⟩ := validCoords_iff.mp hv
  unfold occupiedCount
  apply countP_update_one cellsList _ _ (m.row, m.col) cellsList_nodup
    (mem_cellsList.mpr ⟨hr0, hr, hc0, hc⟩)
  · rw [hemp]
    simp
  · rw [getCell_executeMove s m hr0 hr hc0 hc, if_pos ⟨rfl, rfl⟩]
    simp [currentPlayer_ne_empty s]
  · intro b hb hbne
    have hbmem : (b.1, b.2) ∈ cellsList := by
      rw [show (b.1, b.2) = b from rfl]
      exact hb
    obtain ⟨hx0, hx, hy0, hy⟩ := mem_cellsList.mp hbmem
    rw [getCell_executeMove s m hx0 hx hy0 hy, if_neg]
    · have hiff := getCell_doFlips_empty_iff s.fields (currentPlayer s) hv hx0 hx hy0 hy
      by_cases h : getCell s.fields b.1 b.2 = Cell.empty
      · rw [h, hiff.mpr h]
      · have h2 : getCell (doFlips s.fields (currentPlayer s) m.row m.col) b.1 b.2
            ≠ Cell.empty := fun hcon => h (hiff.mp hcon)
        simp [h, h2]
    · intro hand
      apply hbne
      rw [show b = (b.1, b.2) from rfl, hand.1, hand.2]

/-- The arbiter states reachable by validated moves from the initial
position. -/
inductive Reachable : State → Prop where
  | init : Reachable InitialState
  | step (s : State) (m : Move) : Reachable s → m ∈ listValidMoves s →
      Reachable (executeMove s m)

theorem mem_listValidMoves_candidates {s : State} {m : Move}
    (hm : m ∈ listValidMoves s) : m ∈ candidates s.fields hasOccupiedNeighborA := by
  unfold listValidMoves at hm
  by_cases hfe : ((candidates s.fields hasOccupiedNeighborA).filter
      (fun m => hasFlips s.fields (currentPlayer s) m.row m.col)).isEmpty = true
  · rw [if_pos hfe] at hm; exact hm
  · rw [if_neg hfe] at hm; exact (List.mem_filter.mp hm).1

theorem reachable_occupiedCount : ∀ s : State, Reachable s →
    occupiedCount s = 4 + s.moves_played := by
  intro s h
  induction h with
  | init => decide
  | step s m _ hmem ih =>
    obtain ⟨hvc, hemp, _⟩ := mem_candidates.mp (mem_listValidMoves_candidates hmem)
    rw [occupiedCount_executeMove s m hvc hemp, ih]
    rfl

/-- C9: every state reachable through validated `ExecuteMove`s has
exactly 4 + moves_played occupied cells: a legal move fills one empty
cell and the flip passes only recolour occupied cells. -/
theorem claim_C9_occupancy_invariant :
    (∀ s : State, Reachable s → occupiedCount s = 4 + s.moves_played) ∧
    (∀ (s : State) (m : Move), m ∈ listValidMoves s →
      occupiedCount (executeMove s m) = occupiedCount s + 1) := by
  constructor
  · exact reachable_occupiedCount
  · intro s m hm
    obtain ⟨hvc, hemp, _⟩ := mem_candidates.mp (mem_listValidMoves_candidates hm)
    exact occupiedCount_executeMove s m hvc hemp

theorem claim_C9_occupancy_invariant_witness :
    (occupiedCount InitialState = 4 + InitialState.moves_played) ∧
    ((⟨2, 4⟩ : Move) ∈ listValidMoves InitialState ∧
      occupiedCount (executeMove InitialState ⟨2, 4⟩) = occupiedCount InitialState + 1) :=
  ⟨claim_C9_occupancy_invariant.1 InitialState Reachable.init,
    by decide,
    claim_C9_occupancy_invariant.2 InitialState ⟨2, 4⟩ (by decide)⟩

/-! ### C6: a full 60-move game always fills the board -/

theorem playSeq_some : ∀ (ms : List Move) (s t : State), playSeq s ms = some t →
    (Reachable s → Reachable t) ∧ t.moves_played = s.moves_played + ms.length := by
  intro ms
  induction ms with
  | nil =>
    intro s t hp
    simp only [playSeq, Option.some.injEq] at hp
    subst hp
    exact ⟨id, by simp⟩
  | cons m rest ih =>
    intro s t hp
    unfold playSeq at hp
    by_cases hval : validateMove s m = true
    · rw [if_pos hval] at hp
      obtain ⟨hreach, hmoves⟩ := ih (executeMove s m) t hp
      have hmem : m ∈ listValidMoves s := by
        unfold validateMove at hval
        exact List.mem_of_elem_eq_true hval
      constructor
      · intro hs
        exact hreach (Reachable.step s m hs hmem)
      · rw [hmoves]
        have : (executeMove s m).moves_played = s.moves_played + 1 := rfl
        rw [this]
        simp [List.length_cons]
        omega
    · rw [if_neg hval] at hp
      exact absurd hp (by simp)

/-- C6 as stated is false: there is no 60-move validated game from the
initial position whose final board still has an empty cell — each of the
60 moves fills exactly one of the 60 initially empty cells, so every
completed game ends with all 64 cells occupied. -/
theorem claim_C6_counterexample :
    ¬ ∃ (ms : List Move) (t : State), ms.length = 60 ∧
        playSeq InitialState ms = some t ∧ hasEmptyCell t = true := by
  rintro ⟨ms, t, hlen, hplay, hempty⟩
  obtain ⟨hreach, hmoves⟩ := playSeq_some ms InitialState t hplay
  have hocc : occupiedCount t = 64 := by
    rw [reachable_occupiedCount t (hreach Reachable.init), hmoves, hlen]
    rfl
  have hall : ∀ z ∈ cellsList, (!(getCell t.fields z.1 z.2 == Cell.empty)) = true := by
    apply List.countP_eq_length.mp
    rw [show cellsList.length = 64 from rfl]
    exact hocc
  unfold hasEmptyCell at hempty
  rw [List.any_eq_true] at hempty
  obtain ⟨z, hz, hzemp⟩ := hempty
  have := hall z hz
  rw [hzemp] at this
  exact Bool.false_ne_true (by simpa using this)

/-- Walking one step at a time from an occupied cell toward an empty
cell, the first empty cell of the walk is adjacent to an occupied cell:
any board with at least one disc and at least one hole has a candidate
move. -/
theorem exists_empty_with_occupied_neighbor (f : Fields) :
    ∀ (d : Nat) (ar ac br bc : Int),
      validCoords ar ac = true → validCoords br bc = true →
      getCell f ar ac ≠ Cell.empty → getCell f br bc = Cell.empty →
      (br - ar).natAbs + (bc - ac).natAbs ≤ d →
      ∃ er ec : Int, validCoords er ec = true ∧ getCell f er ec = Cell.empty ∧
        hasOccupiedNeighborA f er ec = true := by
  intro d
  induction d with
  | zero =>
    intro ar ac br bc _ _ hocc hemp hd
    exfalso
    have h1 : br = ar := by omega
    have h2 : bc = ac := by omega
    rw [h1, h2] at hemp
    exact hocc hemp
  | succ d ih =>
    intro ar ac br bc hva hvb hocc hemp hd
    by_cases hclose : (br - ar).natAbs + (bc - ac).natAbs ≤ d
    · exact ih ar ac br bc hva hvb hocc hemp hclose
    · obtain ⟨hva1, hva2, hva3, hva4⟩ := validCoords_iff.mp hva
      obtain ⟨hvb1, hvb2, hvb3, hvb4⟩ := validCoords_iff.mp hvb
      -- one step from (ar, ac) toward (br, bc); `del` is the offset back
      -- from the stepped cell to (ar, ac), one of the four axis
      -- directions
      have hkey : ∀ cr cc delr delc : Int, (delr, delc) ∈ dirs →
          cr + delr = ar → cc + delc = ac → validCoords cr cc = true →
          (br - cr).natAbs + (bc - cc).natAbs ≤ d →
          ∃ er ec : Int, validCoords er ec = true ∧ getCell f er ec = Cell.empty ∧
            hasOccupiedNeighborA f er ec = true := by
        intro cr cc delr delc hdel hdr hdc hvc hdist
        by_cases hce : getCell f cr cc = Cell.empty
        · refine ⟨cr, cc, hvc, hce, ?_⟩
          unfold hasOccupiedNeighborA
          rw [List.any_eq_true]
          refine ⟨(delr, delc), hdel, ?_⟩
          rw [Bool.and_eq_true]
          constructor
          · rw [show cr + (delr, delc).1 = ar from hdr,
              show cc + (delr, delc).2 = ac from hdc]
            exact hva
          · rw [show cr + (delr, delc).1 = ar from hdr,
              show cc + (delr, delc).2 = ac from hdc]
            simp only [Bool.not_eq_true', beq_eq_false_iff_ne, ne_eq]
            exact hocc
        · exact ih cr cc br bc hvc hvb hce hemp hdist
      by_cases h1 : ar < br
      · exact hkey (ar + 1) ac (-1) 0 (by decide) (by ring) (by ring)
          (validCoords_iff.mpr ⟨by omega, by omega, hva3, hva4⟩) (by omega)
      · by_cases h2 : br < ar
        · exact hkey (ar - 1) ac 1 0 (by decide) (by ring) (by ring)
            (validCoords_iff.mpr ⟨by omega, by omega, hva3, hva4⟩) (by omega)
        · by_cases h3 : ac < bc
          · exact hkey ar (ac + 1) 0 (-1) (by decide) (by ring) (by ring)
              (validCoords_iff.mpr ⟨hva1, hva2, by omega, by omega⟩) (by omega)
          · by_cases h4 : bc < ac
            · exact hkey ar (ac - 1) 0 1 (by decide) (by ring) (by ring)
                (validCoords_iff.mpr ⟨hva1, hva2, by omega, by omega⟩) (by omega)
            · exfalso
              omega

/-- A reachable position with fewer than 60 moves played always has at
least one valid move: the board still has an empty cell next to a disc,
so the candidate list is nonempty, and `ListValidMoves` returns a
nonempty subset of it either way. -/
theorem reachable_hasMove (s : State) (hr : Reachable s) (hlt : s.moves_played < 60) :
    listValidMoves s ≠ [] := by
  have hcount := reachable_occupiedCount s hr
  -- some cell is occupied
  have hocc : ∃ z ∈ cellsList, (!(getCell s.fields z.1 z.2 == Cell.empty)) = true := by
    rw [← List.countP_pos]
    unfold occupiedCount at hcount
    omega
  -- some cell is empty
  have hempty : ∃ z ∈ cellsList, getCell s.fields z.1 z.2 = Cell.empty := by
    by_contra hno
    push_neg at hno
    have hfull : cellsList.countP (fun z => !(getCell s.fields z.1 z.2 == Cell.empty))
        = cellsList.length := by
      rw [List.countP_eq_length]
      intro z hz
      simp only [Bool.not_eq_true', beq_eq_false_iff_ne, ne_eq]
      exact hno z hz
    unfold occupiedCount at hcount
    rw [hfull] at hcount
    rw [show cellsList.length = 64 from rfl] at hcount
    omega
  obtain ⟨zo, hzo, hzocc⟩ := hocc
  obtain ⟨ze, hze, hzemp⟩ := hempty
  obtain ⟨ho1, ho2, ho3, ho4⟩ := mem_cellsList.mp (show (zo.1, zo.2) ∈ cellsList from hzo)
  obtain ⟨he1, he2, he3, he4⟩ := mem_cellsList.mp (show (ze.1, ze.2) ∈ cellsList from hze)
  have hzocc' : getCell s.fields zo.1 zo.2 ≠ Cell.empty := by
    simp only [Bool.not_eq_true', beq_eq_false_iff_ne, ne_eq] at hzocc
    exact hzocc
  obtain ⟨er, ec, hev, hee, hen⟩ := exists_empty_with_occupied_neighbor s.fields 14
    zo.1 zo.2 ze.1 ze.2 (validCoords_iff.mpr ⟨ho1, ho2, ho3, ho4⟩)
    (validCoords_iff.mpr ⟨he1, he2, he3, he4⟩) hzocc' hzemp (by omega)
  have hcand : (⟨er, ec⟩ : Move) ∈ candidates s.fields hasOccupiedNeighborA :=
    mem_candidates.mpr ⟨hev, hee, hen⟩
  unfold listValidMoves
  by_cases hfe : ((candidates s.fields hasOccupiedNeighborA).filter
      (fun m => hasFlips s.fields (currentPlayer s) m.row m.col)).isEmpty = true
  · rw [if_pos hfe]
    intro hnil
    rw [hnil] at hcand
    exact List.not_mem_nil _ hcand
  · rw [if_neg hfe]
    intro hnil
    rw [hnil] at hfe
    exact hfe rfl

/-- The move the arbiter's rule engine lists first. -/
def greedyMove (s : State) : Move :=
  (listValidMoves s).headD ⟨0, 0⟩

/-- Playing the first listed valid move for the given number of plies. -/
def greedySeq : Nat → State → List Move
  | 0, _ => []
  | fuel + 1, s => greedyMove s :: greedySeq fuel (executeMove s (greedyMove s))

theorem headD_mem {l : List Move} (h : l ≠ []) (d : Move) : l.headD d ∈ l := by
  cases l with
  | nil => exact absurd rfl h
  | cons a t => simp

theorem greedySeq_length : ∀ (fuel : Nat) (s : State), (greedySeq fuel s).length = fuel := by
  intro fuel
  induction fuel with
  | zero => intro s; rfl
  | succ fuel ih =>
    intro s
    simp only [greedySeq, List.length_cons, ih]

theorem greedyMove_mem (s : State) (hr : Reachable s) (hlt : s.moves_played < 60) :
    greedyMove s ∈ listValidMoves s :=
  headD_mem (reachable_hasMove s hr hlt) _

theorem greedySeq_plays : ∀ (fuel : Nat) (s : State), Reachable s →
    s.moves_played + fuel ≤ 60 →
    ∃ t : State, playSeq s (greedySeq fuel s) = some t ∧ Reachable t ∧
      t.moves_played = s.moves_played + fuel := by
  intro fuel
  induction fuel with
  | zero => intro s hr _; exact ⟨s, rfl, hr, rfl⟩
  | succ fuel ih =>
    intro s hr hle
    have hmem := greedyMove_mem s hr (by omega)
    have hval : validateMove s (greedyMove s) = true := by
      unfold validateMove
      exact List.elem_eq_true_of_mem hmem
    obtain ⟨t, hplay, hrt, hmt⟩ := ih (executeMove s (greedyMove s))
      (Reachable.step s (greedyMove s) hr hmem) (by
        have : (executeMove s (greedyMove s)).moves_played = s.moves_played + 1 := rfl
        omega)
    refine ⟨t, ?_, hrt, ?_⟩
    · simp only [greedySeq, playSeq, hval, if_true]
      exact hplay
    · rw [hmt]
      have : (executeMove s (greedyMove s)).moves_played = s.moves_played + 1 := rfl
      omega

/-- A state with all 64 cells occupied has no empty cell. -/
theorem full_no_empty (t : State) (hocc : occupiedCount t = 64) :
    hasEmptyCell t = false := by
  have hall : ∀ z ∈ cellsList, (!(getCell t.fields z.1 z.2 == Cell.empty)) = true := by
    apply List.countP_eq_length.mp
    rw [show cellsList.length = 64 from rfl]
    exact hocc
  unfold hasEmptyCell
  rw [List.any_eq_false]
  intro z hz
  have := hall z hz
  simp only [Bool.not_eq_true', beq_eq_false_iff_ne, ne_eq] at this
  simp only [beq_iff_eq]
  exact this

/-- C6 (amended): there is a sequence of exactly 60 moves, each a member
of `ListValidMoves` in the state where it is played, and since each
applied legal move fills exactly one empty cell, the final board of any
such sequence — in particular the greedy one — is completely full, with
no empty cell left. -/
theorem claim_C6_amended_full_game :
    ∃ (ms : List Move) (t : State), ms.length = 60 ∧
      playSeq InitialState ms = some t ∧ hasEmptyCell t = false := by
  obtain ⟨t, hplay, hreach, hmoves⟩ := greedySeq_plays 60 InitialState Reachable.init
    (by rw [show InitialState.moves_played = 0 from rfl])
  refine ⟨greedySeq 60 InitialState, t, greedySeq_length 60 InitialState, hplay, ?_⟩
  apply full_no_empty
  rw [reachable_occupiedCount t hreach, hmoves]
  rfl

/-! ### C4 / C5: the match loop of the arbiter (`RunGame`)

The two child processes are modelled as oracles: the line a player's
`ReadLine` yields at each turn (a read/framing failure surfaces as a line
that cannot parse, exactly as in the code, where `ReadLine` returns an
empty string that `ParseMove` rejects), and whether a `Write` to that
player succeeds.  The loop itself, the ways it can break, and the final
scoring follow `RunGame` line by line; the abort reason recorded in the
outcome tags which break statement fired. -/

structure Oracle : Type where
  sendLine : List Move → List Int
  acceptWrite : List Move → Bool
  acceptStart : Bool

inductive Abort : Type where
  | startWrite : Abort
  | parseFail : Nat → List Int → Abort
  | validateFail : Nat → Move → Abort
  | forwardWrite : Nat → Abort
deriving DecidableEq

/-- The player index a recorded abort blames (the index whose forfeit the
scoring step sees as `GetNextPlayer` of the final state). -/
def blameOf : Abort → Nat
  | Abort.startWrite => 0
  | Abort.parseFail w _ => w
  | Abort.validateFail w _ => w
  | Abort.forwardWrite w => w

structure RunOutcome : Type where
  finalState : State
  transcript : List Move
  abort : Option Abort

def oracleAt (o0 o1 : Oracle) (i : Nat) : Oracle :=
  if i = 0 then o0 else o1

/-- The `while (!IsGameOver(state))` loop of `RunGame`.  The loop body
runs at most 61 times (each non-breaking iteration plays a move and 60
moves end the game), so fuel 61 makes the recursion structural without
changing the behaviour. -/
def runLoop (o0 o1 : Oracle) : Nat → State → List Move → Bool → RunOutcome
  | 0, s, h, _ => ⟨s, h, none⟩
  | fuel + 1, s, h, started =>
    if isGameOver s then ⟨s, h, none⟩
    else
      let np := getNextPlayer s
      if !started && !o0.acceptStart then ⟨s, h, some Abort.startWrite⟩
      else
        let line := (oracleAt o0 o1 np).sendLine h
        match parseMove line with
        | none => ⟨s, h, some (Abort.parseFail np line)⟩
        | some m =>
          if validateMove s m then
            let s' := executeMove s m
            let h' := h ++ [m]
            if isGameOver s' then runLoop o0 o1 fuel s' h' true
            else if (oracleAt o0 o1 (1 - np)).acceptWrite h' then runLoop o0 o1 fuel s' h' true
            else ⟨s', h', some (Abort.forwardWrite (1 - np))⟩
          else ⟨s, h, some (Abort.validateFail np m)⟩

structure GameResult : Type where
  transcript : List Move
  score : Int
  finalState : State
  abort : Option Abort

/-- `RunGame`: run the loop from the initial state, then score — the
disc differential on a regular end, otherwise -99 when the failing
mover (`GetNextPlayer` of the final state) is player 0 and +99 when it
is player 1. -/
def runGame (o0 o1 : Oracle) : GameResult :=
  let out := runLoop o0 o1 61 InitialState [] false
  let score := if isGameOver out.finalState then calculateScore out.finalState
    else if getNextPlayer out.finalState = 0 then -99 else 99
  ⟨out.transcript, score, out.finalState, out.abort⟩

theorem runLoop_spec (o0 o1 : Oracle) :
    ∀ (fuel : Nat) (s : State) (h : List Move) (st : Bool),
      s.moves_played ≤ 60 → 60 ≤ s.moves_played + fuel →
      (st = false → s.moves_played = 0) →
      h.length = s.moves_played →
      (runLoop o0 o1 fuel s h st).transcript.length
          = (runLoop o0 o1 fuel s h st).finalState.moves_played ∧
      ((runLoop o0 o1 fuel s h st).abort = none →
        (runLoop o0 o1 fuel s h st).finalState.moves_played = 60) ∧
      (∀ a, (runLoop o0 o1 fuel s h st).abort = some a →
        (runLoop o0 o1 fuel s h st).finalState.moves_played < 60 ∧
        blameOf a = getNextPlayer (runLoop o0 o1 fuel s h st).finalState) := by
  intro fuel
  induction fuel with
  | zero =>
    intro s h st h60 hfuel _ hlen
    refine ⟨hlen, fun _ => by simp only [runLoop]; omega, fun a ha => ?_⟩
    exact absurd ha (by simp [runLoop])
  | succ fuel ih =>
    intro s h st h60 hfuel hst hlen
    by_cases hgo : isGameOver s = true
    · have h60' : 60 ≤ s.moves_played := by
        unfold isGameOver at hgo
        exact of_decide_eq_true hgo
      simp only [runLoop, hgo, if_true]
      refine ⟨hlen, fun _ => by omega, fun a ha => ?_⟩
      exact absurd ha (by simp)
    · have hlt : s.moves_played < 60 := by
        unfold isGameOver at hgo
        simp only [decide_eq_true_eq] at hgo
        omega
      simp only [runLoop, hgo, Bool.false_eq_true, if_false]
      by_cases hsw : (!st && !o0.acceptStart) = true
      · simp only [hsw, if_true]
        refine ⟨hlen, fun hc => absurd hc (by simp), fun a ha => ?_⟩
        have ha' : Abort.startWrite = a := Option.some.inj ha
        rw [← ha']
        have hstf : st = false := by
          rw [Bool.and_eq_true] at hsw
          obtain ⟨h1, _⟩ := hsw
          revert h1
          cases st <;> simp
        have hz : s.moves_played = 0 := hst hstf
        refine ⟨hlt, ?_⟩
        simp only [blameOf]
        unfold getNextPlayer
        omega
      · simp only [hsw, Bool.false_eq_true, if_false]
        cases hpm : parseMove ((oracleAt o0 o1 (getNextPlayer s)).sendLine h) with
        | none =>
          simp only [hpm]
          refine ⟨hlen, fun hc => absurd hc (by simp), fun a ha => ?_⟩
          have ha' : Abort.parseFail (getNextPlayer s)
              ((oracleAt o0 o1 (getNextPlayer s)).sendLine h) = a := Option.some.inj ha
          rw [← ha']
          exact ⟨hlt, rfl⟩
        | some m =>
          simp only [hpm]
          by_cases hvm : validateMove s m = true
          · simp only [hvm, if_true]
            have hm1 : (executeMove s m).moves_played = s.moves_played + 1 := rfl
            have hlen' : (h ++ [m]).length = (executeMove s m).moves_played := by
              rw [List.length_append, hlen, hm1]
              rfl
            by_cases hgo' : isGameOver (executeMove s m) = true
            · simp only [hgo', if_true]
              exact ih (executeMove s m) (h ++ [m]) true (by omega) (by omega)
                (fun hc => absurd hc (by simp)) hlen'
            · simp only [hgo', Bool.false_eq_true, if_false]
              by_cases hw : (oracleAt o0 o1 (1 - getNextPlayer s)).acceptWrite (h ++ [m]) = true
              · simp only [hw, if_true]
                exact ih (executeMove s m) (h ++ [m]) true (by omega) (by omega)
                  (fun hc => absurd hc (by simp)) hlen'
              · simp only [hw, Bool.false_eq_true, if_false]
                have hlt' : (executeMove s m).moves_played < 60 := by
                  unfold isGameOver at hgo'
                  simp only [decide_eq_true_eq] at hgo'
                  omega
                refine ⟨hlen', fun hc => absurd hc (by simp), fun a ha => ?_⟩
                have ha' : Abort.forwardWrite (1 - getNextPlayer s) = a := Option.some.inj ha
                rw [← ha']
                refine ⟨hlt', ?_⟩
                simp only [blameOf]
                unfold getNextPlayer
                rw [hm1]
                omega
          · simp only [hvm, Bool.false_eq_true, if_false]
            refine ⟨hlen, fun hc => absurd hc (by simp), fun a ha => ?_⟩
            have ha' : Abort.validateFail (getNextPlayer s) m = a := Option.some.inj ha
            rw [← ha']
            exact ⟨hlt, rfl⟩

/-- A player that always sends the line "C5" (a valid first move) and
accepts every write. -/
def oracleC5 : Oracle :=
  ⟨fun _ => [67, 53], fun _ => true, true⟩

/-- A player that sends "C5" but accepts no write (its pipe is broken):
forwarding the first move to it fails. -/
def oracleDeaf : Oracle :=
  ⟨fun _ => [67, 53], fun _ => false, true⟩

/-- The state reached by applying a history of moves (without
re-validation), used to define the greedy players below. -/
def stateAfter (h : List Move) : State :=
  h.foldl executeMove InitialState

/-- A player that always answers with the first move of the arbiter's
own valid-move list for the current position, and accepts every write. -/
def oracleGreedy : Oracle :=
  ⟨fun h => formatMove (greedyMove (stateAfter h)), fun _ => true, true⟩

/-- C4 as stated is false: a match can abort because a write (the
forwarded move, or `Start`) fails, and then the blamed side never failed
a read/parse/validate step — with `oracleDeaf` as second player the
match aborts on the first forward and still scores +99 against it. -/
theorem claim_C4_counterexample :
    ¬ (∀ (o0 o1 : Oracle) (a : Abort), (runGame o0 o1).abort = some a →
        ((runGame o0 o1).score = if blameOf a = 0 then -99 else 99) ∧
        ((∃ l, a = Abort.parseFail (blameOf a) l) ∨
         (∃ m, a = Abort.validateFail (blameOf a) m))) := by
  intro hcl
  have habort : (runGame oracleC5 oracleDeaf).abort = some (Abort.forwardWrite 1) := by
    decide
  rcases (hcl oracleC5 oracleDeaf (Abort.forwardWrite 1) habort).2 with ⟨l, hl⟩ | ⟨m, hm⟩
  · exact absurd hl (by simp)
  · exact absurd hm (by simp)

/-- C4 (amended): every aborted match scores a sentinel of magnitude 99
signed so the non-failing mover wins (-99 when player 0 is blamed, +99
when player 1 is), exactly one side is blamed, and the blamed side is
the one whose read/parse/validate step failed or to whom a write (the
`Start` message or the forwarded move) could not be delivered. -/
theorem claim_C4_forfeit_scoring (o0 o1 : Oracle) (a : Abort)
    (ha : (runGame o0 o1).abort = some a) :
    ((runGame o0 o1).score = if blameOf a = 0 then -99 else 99) ∧
    blameOf a = getNextPlayer (runGame o0 o1).finalState ∧
    ((runGame o0 o1).score = -99 ∨ (runGame o0 o1).score = 99) := by
  obtain ⟨hlen, h60, hsome⟩ := runLoop_spec o0 o1 61 InitialState [] false
    (by decide) (by decide) (fun _ => rfl) rfl
  obtain ⟨hlt, hblame⟩ := hsome a ha
  have hgo : isGameOver (runLoop o0 o1 61 InitialState [] false).finalState = false := by
    unfold isGameOver
    simp only [decide_eq_false_iff_not, not_le]
    exact hlt
  have hscore : (runGame o0 o1).score =
      if getNextPlayer (runLoop o0 o1 61 InitialState [] false).finalState = 0
      then -99 else 99 := by
    show (if isGameOver (runLoop o0 o1 61 InitialState [] false).finalState = true
        then calculateScore (runLoop o0 o1 61 InitialState [] false).finalState
        else if getNextPlayer (runLoop o0 o1 61 InitialState [] false).finalState = 0
        then -99 else 99) = _
    rw [hgo]
    simp
  refine ⟨?_, hblame, ?_⟩
  · rw [hscore, hblame]
  · rw [hscore]
    by_cases h0 : getNextPlayer (runLoop o0 o1 61 InitialState [] false).finalState = 0
    · rw [if_pos h0]; exact Or.inl rfl
    · rw [if_neg h0]; exact Or.inr rfl

theorem claim_C4_forfeit_scoring_witness :
    (runGame oracleC5 oracleDeaf).abort = some (Abort.forwardWrite 1) ∧
      ((runGame oracleC5 oracleDeaf).score
          = if blameOf (Abort.forwardWrite 1) = 0 then -99 else 99) :=
  ⟨by decide, (claim_C4_forfeit_scoring oracleC5 oracleDeaf
    (Abort.forwardWrite 1) (by decide)).1⟩

/-- C5: a match is over exactly when the move count reaches 60 (never by
absence of legal moves), and a match that never aborts plays exactly 60
moves and is scored by the disc differential `CalculateScore`. -/
theorem claim_C5_terminal_condition (s : State) (o0 o1 : Oracle) :
    (isGameOver s = true ↔ 60 ≤ s.moves_played) ∧
    ((runGame o0 o1).abort = none →
      (runGame o0 o1).transcript.length = 60 ∧
      (runGame o0 o1).score = calculateScore (runGame o0 o1).finalState) := by
  constructor
  · unfold isGameOver
    simp
  · intro hnone
    obtain ⟨hlen, h60, _⟩ := runLoop_spec o0 o1 61 InitialState [] false
      (by decide) (by decide) (fun _ => rfl) rfl
    have hm60 : (runLoop o0 o1 61 InitialState [] false).finalState.moves_played = 60 :=
      h60 hnone
    have hgo : isGameOver (runLoop o0 o1 61 InitialState [] false).finalState = true := by
      unfold isGameOver
      simp [hm60]
    constructor
    · show (runLoop o0 o1 61 InitialState [] false).transcript.length = 60
      rw [hlen]
      exact hm60
    · show (if isGameOver (runLoop o0 o1 61 InitialState [] false).finalState = true
          then calculateScore (runLoop o0 o1 61 InitialState [] false).finalState
          else if getNextPlayer (runLoop o0 o1 61 InitialState [] false).finalState = 0
          then -99 else 99) = _
      rw [hgo]
      rw [if_pos rfl]
      rfl

theorem parseMove_formatMove (m : Move) (hv : validCoords m.row m.col = true) :
    parseMove (formatMove m) = some m := by
  obtain ⟨r, c⟩ := m
  obtain ⟨h1, h2, h3, h4⟩ := validCoords_iff.mp hv
  have hrow : (65 : Int) + r - 65 = r := by ring
  have hcol : (49 : Int) + c - 49 = c := by ring
  unfold parseMove formatMove
  simp only [List.length_cons, List.length_nil, List.getD_cons_zero, List.getD_cons_succ,
    if_true, hrow, hcol, hv]

theorem oracleAt_greedy (i : Nat) : oracleAt oracleGreedy oracleGreedy i = oracleGreedy := by
  unfold oracleAt
  split <;> rfl

theorem stateAfter_append (h : List Move) (m : Move) :
    stateAfter (h ++ [m]) = executeMove (stateAfter h) m := by
  unfold stateAfter
  rw [List.foldl_append]
  rfl

theorem runGame_abort (o0 o1 : Oracle) :
    (runGame o0 o1).abort = (runLoop o0 o1 61 InitialState [] false).abort := rfl

/-- Two greedy players never break the match loop: there is always a
valid move before ply 60, it round-trips through the wire encoding, it
validates, and every write is accepted. -/
theorem runLoop_greedy : ∀ (fuel : Nat) (h : List Move) (st : Bool) (s : State),
    s = stateAfter h → Reachable s →
    (runLoop oracleGreedy oracleGreedy fuel s h st).abort = none := by
  intro fuel
  induction fuel with
  | zero => intro h st s _ _; rfl
  | succ fuel ih =>
    intro h st s hs hr
    subst hs
    by_cases hgo : isGameOver (stateAfter h) = true
    · simp only [runLoop, hgo, if_true]
    · have hlt : (stateAfter h).moves_played < 60 := by
        unfold isGameOver at hgo
        simp only [decide_eq_true_eq] at hgo
        omega
      have hmem := greedyMove_mem (stateAfter h) hr hlt
      obtain ⟨hvc, _, _⟩ := mem_candidates.mp (mem_listValidMoves_candidates hmem)
      have hparse : parseMove ((oracleAt oracleGreedy oracleGreedy
          (getNextPlayer (stateAfter h))).sendLine h) = some (greedyMove (stateAfter h)) := by
        rw [oracleAt_greedy]
        exact parseMove_formatMove _ hvc
      have hval : validateMove (stateAfter h) (greedyMove (stateAfter h)) = true :=
        List.elem_eq_true_of_mem hmem
      have hsw : (!st && !oracleGreedy.acceptStart) = false := by
        simp [oracleGreedy]
      have hrec' : Reachable (executeMove (stateAfter h) (greedyMove (stateAfter h))) :=
        Reachable.step _ _ hr hmem
      have hexec : executeMove (stateAfter h) (greedyMove (stateAfter h))
          = stateAfter (h ++ [greedyMove (stateAfter h)]) :=
        (stateAfter_append h _).symm
      simp only [runLoop, hgo, Bool.false_eq_true, if_false]
      rw [hsw]
      simp only [Bool.false_eq_true, if_false]
      simp only [hparse]
      simp only [hval, if_true]
      by_cases hgo2 : isGameOver (executeMove (stateAfter h) (greedyMove (stateAfter h))) = true
      · simp only [hgo2, if_true]
        exact ih (h ++ [greedyMove (stateAfter h)]) true _ hexec hrec'
      · simp only [hgo2, Bool.false_eq_true, if_false]
        rw [if_pos (show (oracleAt oracleGreedy oracleGreedy
            (1 - getNextPlayer (stateAfter h))).acceptWrite
            (h ++ [greedyMove (stateAfter h)]) = true by rw [oracleAt_greedy]; rfl)]
        exact ih (h ++ [greedyMove (stateAfter h)]) true _ hexec hrec'

theorem claim_C5_terminal_condition_witness :
    (runGame oracleGreedy oracleGreedy).abort = none ∧
      (runGame oracleGreedy oracleGreedy).transcript.length = 60 ∧
      (runGame oracleGreedy oracleGreedy).score
        = calculateScore (runGame oracleGreedy oracleGreedy).finalState := by
  have hnone : (runGame oracleGreedy oracleGreedy).abort = none := by
    rw [runGame_abort]
    exact runLoop_greedy 61 [] false InitialState rfl Reachable.init
  obtain ⟨h1, h2⟩ :=
    (claim_C5_terminal_condition InitialState oracleGreedy oracleGreedy).2 hnone
  exact ⟨hnone, h1, h2⟩

end Flippo
